import Mathlib

/-!
Verification development for the Research-paper-explorer in-memory indexing
and query-matching engine (`main.py`, `advanced_search.py`).

Python strings are modelled as `List Char` (a Python `str` is a sequence of
Unicode code points, which is exactly what `List Char` is); Python's
lexicographic string comparison is the lexicographic order on the code-point
sequences.  All definitions are executable, so concrete runs of the embedded
code can be checked by `decide`.
-/

/-- A Python string: a sequence of Unicode code points. -/
abbrev Str := List Char

/-- Coerce a Lean string literal to the `Str` model. -/
def chars (s : String) : Str := s.toList

/-- Python lexicographic `<` on strings (code-point order). -/
def strLt : Str → Str → Bool
  | [], [] => false
  | [], _ :: _ => true
  | _ :: _, [] => false
  | a :: as, b :: bs => if a < b then true else if b < a then false else strLt as bs

/-- Python `<=` on strings: the order is total, so `a <= b` iff `not (b < a)`. -/
def strLe (a b : Str) : Bool := ! strLt b a

/-!
## Title Index: the AVL tree of `main.py` (`class AVLTree`)

`AVLNode` stores a title, a height (initialised to 1) and two children;
absent children are `nil`.
-/

/-- An AVL-tree node of `main.py` (`class AVLNode`): a title key, the stored
height field, and the two children (`nil` models Python `None`). -/
inductive AVL where
  | nil : AVL
  | node (title : Str) (height : Nat) (l r : AVL) : AVL
deriving DecidableEq

namespace AVLTree

/-- Method `get_height`: the stored height, 0 for an absent node. -/
def get_height : AVL → Nat
  | .nil => 0
  | .node _ h _ _ => h

/-- Method `get_balance`: stored height of left child minus stored height of
right child (0 for an absent node). -/
def get_balance : AVL → Int
  | .nil => 0
  | .node _ _ l r => (get_height l : Int) - (get_height r : Int)

/-- Method `rotate_left`: if `z.right` is absent the rotation is a no-op
(the `if not y` guard); otherwise the standard left rotation followed by the
two height recomputations, in source order (`z` first, then `y`). -/
def rotate_left : AVL → AVL
  | .nil => .nil
  | .node zt zh zl zr =>
    match zr with
    | .nil => .node zt zh zl zr
    | .node yt _ yl yr =>
      let z' := AVL.node zt (1 + max (get_height zl) (get_height yl)) zl yl
      AVL.node yt (1 + max (get_height z') (get_height yr)) z' yr

/-- Method `rotate_right`: mirror image of `rotate_left`. -/
def rotate_right : AVL → AVL
  | .nil => .nil
  | .node zt zh zl zr =>
    match zl with
    | .nil => .node zt zh zl zr
    | .node yt _ yl yr =>
      let z' := AVL.node zt (1 + max (get_height yr) (get_height zr)) yr zr
      AVL.node yt (1 + max (get_height yl) (get_height z')) yl z'

/-- Guard `node.child and node.child.title > key`: [present and key strictly
below the child's title]. -/
def childGt (key : Str) : AVL → Bool
  | .nil => false
  | .node ct _ _ _ => strLt key ct

/-- Guard `node.child and node.child.title < key`: [present and the child's
title strictly below key]. -/
def childLt (key : Str) : AVL → Bool
  | .nil => false
  | .node ct _ _ _ => strLt ct key

/-- Method `balance_tree`: the four rebalancing branches exactly as written in
the source.  Note that the guards compare the child's key with the node's own
key (`node.left.title > node.title` etc.), not the inserted key with the
child's key. -/
def balance_tree (t : AVL) : AVL :=
  match t with
  | .nil => .nil
  | .node nt nh nl nr =>
    let n := AVL.node nt nh nl nr
    let balance := get_balance n
    -- Left Left Case
    if balance > 1 ∧ childGt nt nl = true then
      rotate_right n
    -- Right Right Case
    else if balance < -1 ∧ childLt nt nr = true then
      rotate_left n
    -- Left Right Case
    else if balance > 1 ∧ childLt nt nl = true then
      rotate_right (AVL.node nt nh (rotate_left nl) nr)
    -- Right Left Case
    else if balance < -1 ∧ childGt nt nr = true then
      rotate_left (AVL.node nt nh nl (rotate_right nr))
    else
      n

/-- Method `insert`: standard BST descent (strictly smaller titles go left,
everything else goes right), then the height update and `balance_tree` call. -/
def insert (root : AVL) (title : Str) : AVL :=
  match root with
  | .nil => .node title 1 .nil .nil
  | .node t _h l r =>
    if strLt title t then
      let l' := insert l title
      balance_tree (.node t (1 + max (get_height l') (get_height r)) l' r)
    else
      let r' := insert r title
      balance_tree (.node t (1 + max (get_height l) (get_height r')) l r')

/-- Method `autocomplete`: collects the node's title when it starts with the
prefix, then recurses into the left and the right subtree, in that order. -/
def autocomplete (t : AVL) (pfx : Str) : List Str :=
  match t with
  | .nil => []
  | .node title _ l r =>
    (if pfx.isPrefixOf title then [title] else []) ++
      autocomplete l pfx ++ autocomplete r pfx

end AVLTree

/-- Build the Title Index by folding `insert` over a list of titles, starting
from the empty tree (as `fetch_research_papers` does). -/
def buildAVL (titles : List Str) : AVL :=
  titles.foldl AVLTree.insert .nil

/-- In-order listing of the titles stored in a Title Index tree. -/
def AVL.inorder : AVL → List Str
  | .nil => []
  | .node t _ l r => inorder l ++ t :: inorder r

/-- Height of a tree computed from its structure alone (ignoring the stored
height fields): 1 + max of the children's heights, absent child = 0. -/
def AVL.realHeight : AVL → Nat
  | .nil => 0
  | .node _ _ l r => 1 + max (realHeight l) (realHeight r)

/-- The AVL balance predicate of the specification: at every node the two
children's heights differ by at most 1, and every stored height field equals
1 + max of the children's heights. -/
def AVL.specBalanced : AVL → Bool
  | .nil => true
  | .node _ h l r =>
    (max (realHeight l) (realHeight r) - min (realHeight l) (realHeight r) ≤ 1) &&
      (h = 1 + max (realHeight l) (realHeight r)) &&
      specBalanced l && specBalanced r

/-- The strict BST ordering invariant: at every node, every title in the left
subtree is strictly smaller than the node's title and every title in the right
subtree is greater than or equal to it. -/
def AVL.orderedStrict : AVL → Bool
  | .nil => true
  | .node t _ l r =>
    (inorder l).all (fun s => strLt s t) && (inorder r).all (fun s => strLe t s) &&
      orderedStrict l && orderedStrict r

/-- The weak BST ordering invariant: at every node, left subtree `<=` node's
title `<=` right subtree. -/
def AVL.orderedWeak : AVL → Bool
  | .nil => true
  | .node t _ l r =>
    (inorder l).all (fun s => strLe s t) && (inorder r).all (fun s => strLe t s) &&
      orderedWeak l && orderedWeak r

/-!
## Author Index: the red-black tree of `main.py` (`class RBTree`)

`RBNode` carries a `(title, author)` payload, a colour, two children and a
parent back-reference; the shared `NIL` sentinel (always black) terminates
every leaf.  The embedding replaces the parent pointers by a zipper: the
path from the node currently being fixed up back to the root is kept as an
explicit list of steps, each step recording on which side the lower node
hangs, together with the parent's colour, keys and other child.  `fix_insertion`
walks this path exactly as the Python `while` loop walks the parent pointers,
and each loop branch below is annotated with the pointer manipulation it
mirrors.
-/

/-- Node colour of `RBNode.color`. -/
inductive RBColor where
  | red : RBColor
  | black : RBColor
deriving DecidableEq

/-- A red-black tree: `nil` is the shared black `NIL` sentinel, a `node`
carries colour, the `(title, author)` payload and the two children. -/
inductive RBT where
  | nil : RBT
  | node (c : RBColor) (t a : Str) (l r : RBT) : RBT
deriving DecidableEq

namespace RBTree

/-- Colour of a tree's root; the `NIL` sentinel is black. -/
def rootColor : RBT → RBColor
  | .nil => .black
  | .node c _ _ _ _ => c

/-- Recolour the root black (`self.root.color = 'black'`, `uncle.color = 'black'`). -/
def blacken : RBT → RBT
  | .nil => .nil
  | .node _ t a l r => .node .black t a l r

/-- Which side of its parent the lower node hangs on. -/
inductive ZDir where
  | left : ZDir
  | right : ZDir
deriving DecidableEq

/-- One parent on the path from the fixup point to the root: the side the
lower node hangs on, the parent's colour and keys, and the parent's other
child. -/
structure ZStep where
  d : ZDir
  c : RBColor
  t : Str
  a : Str
  sib : RBT
deriving DecidableEq

/-- Reattach a subtree below one parent step. -/
def plug1 (s : ZStep) (z : RBT) : RBT :=
  match s.d with
  | .left => .node s.c s.t s.a z s.sib
  | .right => .node s.c s.t s.a s.sib z

/-- Reattach a subtree below a whole parent path (innermost parent first). -/
def plug (z : RBT) : List ZStep → RBT
  | [] => z
  | s :: rest => plug (plug1 s z) rest

/-- The `while current != self.NIL` descent of `_insert_node`: keys strictly
below the current author go left, everything else goes right, recording each
parent passed.  Returns the parent path of the `NIL` position reached
(innermost parent first). -/
def descend (author : Str) : RBT → List ZStep → List ZStep
  | .nil, ctx => ctx
  | .node c t a l r, ctx =>
    if strLt author a then descend author l (⟨.left, c, t, a, r⟩ :: ctx)
    else descend author r (⟨.right, c, t, a, l⟩ :: ctx)

/-- Method `fix_insertion` of `main.py`, on the zipper: `z` is the subtree
rooted at `new_node`, the list is the parent path up to the root.
- empty path: `new_node` is the root; the loop does not run and
  `self.root.color = 'black'` recolours it.
- black parent: the loop exits at once and the root is recoloured black.
- red parent, no grandparent: unreachable (a red parent is never the root
  because the root is always black); completed as a plain loop exit.
- red parent with grandparent: the four CLRS branches of the source.  A red
  uncle recolours parent/uncle/grandparent and continues from the
  grandparent; a black uncle performs the inner rotation when `new_node` is
  on the inside (`rotate_left(new_node)` / `rotate_right(new_node)` on the
  parent) and then the outer rotation at the grandparent with the
  parent-black/grandparent-red recolouring, after which the loop exits
  (the new parent is black).  Rotations never involve the `NIL` sentinel,
  so the `if y == self.NIL: return` guards of `rotate_left`/`rotate_right`
  never fire on these paths. -/
def fix_insertion : List ZStep → RBT → RBT
  | [], z => blacken z
  | s :: rest, z =>
    if s.c = RBColor.black then blacken (plug z (s :: rest))
    else
      match rest with
      | [] => blacken (plug z [s])
      | g :: rest2 =>
        match g.d with
        | .left =>
          if rootColor g.sib = RBColor.red then
            fix_insertion rest2
              (.node .red g.t g.a (plug1 { s with c := RBColor.black } z) (blacken g.sib))
          else
            match s.d, z with
            | .right, .node _ zt za zl zr =>
              blacken (plug (.node .black zt za (.node .red s.t s.a s.sib zl)
                (.node .red g.t g.a zr g.sib)) rest2)
            | _, _ =>
              blacken (plug (.node .black s.t s.a z (.node .red g.t g.a s.sib g.sib)) rest2)
        | .right =>
          if rootColor g.sib = RBColor.red then
            fix_insertion rest2
              (.node .red g.t g.a (blacken g.sib) (plug1 { s with c := RBColor.black } z))
          else
            match s.d, z with
            | .left, .node _ zt za zl zr =>
              blacken (plug (.node .black zt za (.node .red g.t g.a g.sib zl)
                (.node .red s.t s.a zr s.sib)) rest2)
            | _, _ =>
              blacken (plug (.node .black s.t s.a (.node .red g.t g.a g.sib s.sib) z) rest2)

/-- Method `insert`: create a red node with `NIL` children, descend to its
position, then run the fixup along the recorded parent path. -/
def insert (t : RBT) (title author : Str) : RBT :=
  fix_insertion (descend author t []) (.node .red title author .nil .nil)

end RBTree

/-- Build an Author Index by inserting a list of `(title, author)` pairs into
the empty tree, as `fetch_research_papers` does. -/
def buildRB (pairs : List (Str × Str)) : RBT :=
  pairs.foldl (fun t p => RBTree.insert t p.1 p.2) .nil

/-- Method `_inorder_authors`: in-order collection of the author keys. -/
def RBT.inorder_authors : RBT → List Str
  | .nil => []
  | .node _ _ a l r => inorder_authors l ++ a :: inorder_authors r

/-- The red-red freedom invariant: no red node has a red child. -/
def RBT.redRedFree : RBT → Bool
  | .nil => true
  | .node c _ _ l r =>
    (match c with
     | .red =>
       decide (RBTree.rootColor l = RBColor.black) &&
         decide (RBTree.rootColor r = RBColor.black)
     | .black => true) && redRedFree l && redRedFree r

/-- Uniform black height: `some n` when every path from the root to a `NIL`
sentinel passes through exactly `n` black internal nodes, `none` otherwise. -/
def RBT.bh : RBT → Option Nat
  | .nil => some 0
  | .node c _ _ l r =>
    match bh l, bh r with
    | some m, some n =>
      if m = n then some (m + (match c with | .black => 1 | .red => 0)) else none
    | _, _ => none

/-- The black-node count of every root-to-`NIL` path, one list entry per
sentinel position. -/
def RBT.blackCounts : RBT → List Nat
  | .nil => [0]
  | .node c _ _ l r =>
    (blackCounts l ++ blackCounts r).map
      (fun n => n + (match c with | .black => 1 | .red => 0))

namespace RBTree

/-- Black-height contribution of one node colour. -/
def bhC : RBColor → Nat
  | .black => 1
  | .red => 0

/-- Black-height one step further up the parent path. -/
def stepBH (s : ZStep) (n : Nat) : Nat := n + bhC s.c

/-- Validity of a parent path relative to the black height `n` of the subtree
in the hole: every recorded sibling is a well-formed red-black subtree of
black height matching its level, a red parent has a black sibling for the
hole and hangs below a black grandparent (in particular it is not the root),
and the rest of the path is valid one level up. -/
def CtxOk : List ZStep → Nat → Prop
  | [], _ => True
  | s :: rest, n =>
    s.sib.redRedFree = true ∧ s.sib.bh = some n ∧
      (s.c = RBColor.red →
        rootColor s.sib = RBColor.black ∧
          ∃ g rest2, rest = g :: rest2 ∧ g.c = RBColor.black) ∧
      CtxOk rest (stepBH s n)

/-- The head of a parent path is black (or the path is empty): the condition
under which a red subtree may be plugged back without creating a red-red
violation at the seam. -/
def headBlackOrNil : List ZStep → Prop
  | [] => True
  | s :: _ => s.c = RBColor.black

/-- Full red-black validity: black root, no red-red edge, uniform black height. -/
def RBInv (t : RBT) : Prop :=
  rootColor t = RBColor.black ∧ t.redRedFree = true ∧ (t.bh).isSome = true

/-- A nonempty parent path whose head is black. -/
def headBlackNe (ctx : List ZStep) : Prop :=
  ∃ g rest2, ctx = g :: rest2 ∧ g.c = RBColor.black

end RBTree

/-!
## `list_unique_authors`: contents of the Author Index and the sorted-unique read

`list_unique_authors` returns Python's `sorted(set(authors))` over the in-order
author collection: duplicate removal under exact string equality followed by an
ascending sort.  The set's iteration order is immaterial, because sorting a
duplicate-free list is determined by its members alone; the embedding
canonically keeps the first occurrence of each author before sorting.
-/

/-- Insert into an ascending list, keeping it ascending. -/
def insSorted (x : Str) : List Str → List Str
  | [] => [x]
  | y :: ys => if strLt x y then x :: y :: ys else y :: insSorted x ys

/-- Ascending insertion sort (the order produced by Python's `sorted`). -/
def sortAsc (l : List Str) : List Str := l.foldr insSorted []

/-- Keep the elements not yet seen, first occurrence first: the loop
`for suggestion in suggestions: if suggestion not in seen: ...` of
`smart_autocomplete`, and a canonical representative of Python's unordered
`set(...)`. -/
def dedupSeen (seen : List Str) : List Str → List Str
  | [] => []
  | x :: xs => if x ∈ seen then dedupSeen seen xs else x :: dedupSeen (x :: seen) xs

/-- Duplicate removal keeping the first occurrence of each string. -/
def dedupKeepFirst (l : List Str) : List Str := dedupSeen [] l

/-- Method `list_unique_authors`: `sorted(set(self._inorder_authors(self.root)))`. -/
def RBTree.list_unique_authors (t : RBT) : List Str :=
  sortAsc (dedupKeepFirst t.inorder_authors)

/-- The in-order author sequence of the part of the tree hanging left of the
hole of a zipper context. -/
def RBTree.ctxPre : List RBTree.ZStep → List Str
  | [] => []
  | s :: rest =>
    match s.d with
    | .left => ctxPre rest
    | .right => ctxPre rest ++ s.sib.inorder_authors ++ [s.a]

/-- The in-order author sequence of the part of the tree hanging right of the
hole of a zipper context. -/
def RBTree.ctxPost : List RBTree.ZStep → List Str
  | [] => []
  | s :: rest =>
    match s.d with
    | .left => s.a :: s.sib.inorder_authors ++ ctxPost rest
    | .right => ctxPost rest

/-!
## `advanced_search.py`: Query Analyzer, Suggestion Ranker, Filter Engine

The regular expressions of the source (`"([^"]*)"`, `(\w+):([^\s]+)`,
`\b\w+\b`, `\b(AND|OR|NOT)\b` with IGNORECASE) are implemented as explicit
scanners over the code-point sequence with the same match semantics: word
characters are alphanumerics plus underscore, `\b\w+\b` matches exactly the
maximal word-character runs, and a whole-word `AND`/`OR`/`NOT` match is a
maximal run equal to the operator up to case.  External collaborators are
parameters: difflib similarity tests are oracle functions, `datetime.now()`
is an integer number of seconds on the proleptic-Gregorian scale used by
`datetime.toordinal`.
-/

/-- Python regex `\w` (ASCII range): alphanumeric or underscore. -/
def isWordChar (c : Char) : Bool := c.isAlphanum || c = '_'

/-- Python `str.lower()` on one ASCII code point. -/
def lowerChar (c : Char) : Char :=
  if 'A' ≤ c ∧ c ≤ 'Z' then Char.ofNat (c.toNat + 32) else c

/-- Python `str.lower()`. -/
def lowerStr (s : Str) : Str := s.map lowerChar

/-- Maximal word-character runs with an accumulator: `re.findall(r'\b\w+\b', s)`. -/
def wordRunsAcc : Str → List Char → List Str
  | [], acc => if acc.isEmpty then [] else [acc.reverse]
  | c :: cs, acc =>
    if isWordChar c then wordRunsAcc cs (c :: acc)
    else (if acc.isEmpty then [] else [acc.reverse]) ++ wordRunsAcc cs []

/-- All maximal word-character runs of a string. -/
def wordRuns (l : Str) : List Str := wordRunsAcc l []

/-- Python `str.split()` (no argument): maximal runs of non-whitespace. -/
def splitWSAcc : Str → List Char → List Str
  | [], acc => if acc.isEmpty then [] else [acc.reverse]
  | c :: cs, acc =>
    if c.isWhitespace then (if acc.isEmpty then [] else [acc.reverse]) ++ splitWSAcc cs []
    else splitWSAcc cs (c :: acc)

/-- Python `str.split()`. -/
def splitWS (l : Str) : List Str := splitWSAcc l []

/-- Python `str.split(',')`: empty pieces are kept. -/
def splitOnComma : Str → List Str
  | [] => [[]]
  | c :: cs =>
    if c = ',' then [] :: splitOnComma cs
    else
      match splitOnComma cs with
      | p :: ps => (c :: p) :: ps
      | [] => [[c]]

/-- Python `str.split(', ')` (the two-character separator used for author lists). -/
def splitCommaSpace : Str → List Str
  | [] => [[]]
  | ',' :: ' ' :: cs => [] :: splitCommaSpace cs
  | c :: cs =>
    match splitCommaSpace cs with
    | p :: ps => (c :: p) :: ps
    | [] => [[c]]

/-- Python `str.strip()`. -/
def trimStr (l : Str) : Str :=
  ((l.dropWhile Char.isWhitespace).reverse.dropWhile Char.isWhitespace).reverse

/-- Substring containment, Python's `needle in haystack`. -/
def substrB (ned : Str) : Str → Bool
  | [] => ned.isEmpty
  | c :: t => ned.isPrefixOf (c :: t) || substrB ned t

/-- Scanner for the quoted-phrase pattern `"([^"]*)"`: simultaneous
`re.findall` (first component) and `re.sub(..., '')` (second component).
The second argument is `some acc` while inside an opened quote; a quote that
never closes matches nothing and stays in the residual text. -/
def quotedAux : Str → Option (List Char) → List Str × Str
  | [], none => ([], [])
  | [], some acc => ([], '"' :: acc.reverse)
  | c :: cs, none =>
    if c = '"' then quotedAux cs (some [])
    else
      let (ps, res) := quotedAux cs none
      (ps, c :: res)
  | c :: cs, some acc =>
    if c = '"' then
      let (ps, res) := quotedAux cs none
      (acc.reverse :: ps, res)
    else quotedAux cs (some (c :: acc))

/-- `re.findall` and `re.sub` of the quoted-phrase pattern. -/
def quotedScan (l : Str) : List Str × Str := quotedAux l none

/-- Scanner for the field pattern `(\w+):([^\s]+)`: `re.findall` of the
`(field, value)` pairs and `re.sub(..., '')` residual, fuelled by the input
length (each step consumes at least one code point).  A word run is a match
head only when followed by `:` and a nonempty run of non-whitespace. -/
def fieldAux : Nat → Str → List (Str × Str) × Str
  | 0, rest => ([], rest)
  | _ + 1, [] => ([], [])
  | n + 1, c :: cs =>
    if isWordChar c then
      let w := c :: cs.takeWhile isWordChar
      let rest := cs.dropWhile isWordChar
      match rest with
      | ':' :: rest2 =>
        let v := rest2.takeWhile (fun x => ! x.isWhitespace)
        if v.isEmpty then
          let (ms, res) := fieldAux n rest2
          (ms, w ++ ':' :: res)
        else
          let rest3 := rest2.dropWhile (fun x => ! x.isWhitespace)
          let (ms, res) := fieldAux n rest3
          ((w, v) :: ms, res)
      | _ =>
        let (ms, res) := fieldAux n rest
        (ms, w ++ res)
    else
      let (ms, res) := fieldAux n cs
      (ms, c :: res)

/-- `re.findall` and `re.sub` of the field pattern. -/
def fieldScan (l : Str) : List (Str × Str) × Str := fieldAux l.length l

/-- Nat value of a digit run. -/
def digitsVal (l : Str) : Nat := l.foldl (fun a c => 10 * a + (c.toNat - 48)) 0

/-- Python `int(s)` on a string, `none` for `ValueError`: strip whitespace,
optional sign, then a nonempty run of decimal digits.  (Exotic accepted forms
such as digit-group underscores do not occur in this program's data.) -/
def parseIntPy (s : Str) : Option Int :=
  let t := trimStr s
  let core : Str × Int :=
    match t with
    | '+' :: ds => (ds, 1)
    | '-' :: ds => (ds, -1)
    | ds => (ds, 1)
  if core.1 ≠ [] ∧ core.1.all Char.isDigit then some (core.2 * (digitsVal core.1 : Int))
  else none

/-- A Python scalar as found in the record fields `year`/`citation_count`:
an integer, a string, or `None`. -/
inductive PyVal where
  | pInt (n : Int) : PyVal
  | pStr (s : Str) : PyVal
  | pNone : PyVal
deriving DecidableEq

/-- Python `int(v)` on a scalar, `none` for `ValueError`/`TypeError`. -/
def pyIntOf : PyVal → Option Int
  | .pInt n => some n
  | .pStr s => parseIntPy s
  | .pNone => none

/-- A bibliographic record as consumed by the filter engine; every field is
read with `paper.get(...)`, so each may be absent. -/
structure Paper where
  title : Option Str
  authors : Option Str
  venue : Option Str
  year : Option PyVal
  citation_count : Option PyVal
deriving DecidableEq

/-- Proleptic-Gregorian ordinal of January 1 of year `y` (Python
`date(y, 1, 1).toordinal()`), for `y ≥ 1`. -/
def jan1Ordinal (y : Nat) : Nat :=
  365 * (y - 1) + (y - 1) / 4 - (y - 1) / 100 + (y - 1) / 400 + 1

/-- Python `datetime(y, 1, 1)` as seconds-since-epoch on the ordinal scale;
`none` models the `ValueError` raised outside `datetime`'s year range
1..9999.  Sub-second precision of real instants is irrelevant here. -/
def datetimeJan1 (y : Int) : Option Int :=
  if 1 ≤ y ∧ y ≤ 9999 then some (86400 * (jan1Ordinal y.toNat : Int)) else none

namespace AdvancedSearchEngine

/-- The result structure filled in by `analyze_query`. -/
structure QueryAnalysis where
  keywords : List Str
  quoted_phrases : List Str
  boolean_operators : List Str
  field_queries : List (Str × Str)
  intent : Str
deriving DecidableEq

/-- Python dict assignment `d[k] = v`: overwrite in place, or append a new
binding (dicts preserve first-insertion order). -/
def updateAssoc (m : List (Str × Str)) (k v : Str) : List (Str × Str) :=
  match m with
  | [] => [(k, v)]
  | (k', v') :: rest => if k' = k then (k, v) :: rest else (k', v') :: updateAssoc rest k v

/-- Method `analyze_query` of `advanced_search.py`: extract quoted phrases
and remove them, extract `field:value` pairs and remove them, collect
case-insensitive whole-word `AND`/`OR`/`NOT` occurrences (case preserved),
tokenize the lowercased remainder excluding the literal operator words, and
classify the intent by the fixed priority order. -/
def analyze_query (query : Str) : QueryAnalysis :=
  let step1 := quotedScan query
  let quotes := step1.1
  let step2 := fieldScan step1.2
  let field_queries := step2.1.foldl (fun m fv => updateAssoc m (lowerStr fv.1) fv.2) []
  let clean2 := step2.2
  let opWords : List Str := [ chars "and", chars "or", chars "not" ]
  let boolean_ops := (wordRuns clean2).filter (fun w => lowerStr w ∈ opWords)
  let keywords := (wordRuns (lowerStr clean2)).filter (fun w => ¬ w ∈ opWords)
  let intent :=
    if [ chars "survey", chars "review", chars "overview" ].any (fun w => w ∈ keywords) then
      chars "survey"
    else if [ chars "method", chars "algorithm", chars "technique" ].any
        (fun w => w ∈ keywords) then
      chars "methodology"
    else if [ chars "dataset", chars "data", chars "benchmark" ].any
        (fun w => w ∈ keywords) then
      chars "dataset"
    else
      chars "general"
  ⟨keywords, quotes, boolean_ops, field_queries, intent⟩

/-- The stoplist of `suggest_related_queries`. -/
def stopWords : List Str :=
  [ chars "paper", chars "study", chars "research", chars "analysis" ]

/-- One `word_freq[word] += 1` on a defaultdict kept as an association list in
first-insertion order. -/
def bump : List (Str × Nat) → Str → List (Str × Nat)
  | [], w => [(w, 1)]
  | (x, k) :: rest, w => if x = w then (x, k + 1) :: rest else (x, k) :: bump rest w

/-- The `word_freq` defaultdict after the counting loop: words of length
at most 3 and stoplist words are never counted. -/
def wordFreq (ws : List Str) : List (Str × Nat) :=
  ws.foldl (fun acc w => if w.length > 3 ∧ ¬ w ∈ stopWords then bump acc w else acc) []

/-- Stable descending insertion by count: an earlier entry stays before later
entries of equal count, as Python's stable `sorted(..., reverse=True)` does. -/
def insDesc (p : Str × Nat) : List (Str × Nat) → List (Str × Nat)
  | [] => [p]
  | q :: qs => if q.2 > p.2 then q :: insDesc p qs else p :: q :: qs

/-- `sorted(word_freq.items(), key=lambda x: x[1], reverse=True)`. -/
def sortDesc (l : List (Str × Nat)) : List (Str × Nat) := l.foldr insDesc []

/-- Python `' '.join(...)`. -/
def intercalateSpace : List Str → Str
  | [] => []
  | [s] => s
  | s :: rest => s ++ ' ' :: intercalateSpace rest

/-- Method `suggest_related_queries`: count word frequencies over all record
titles (a record's `title` is always present in this program's data; an
absent one is read as the empty string), take the 10 most frequent words,
keep those outside the query's own word set with frequency above 1, emit
`"{query} {word}"`, and cap at 5. -/
def suggest_related_queries (query : Str) (papers : List Paper) : List Str :=
  let all_text := intercalateSpace (papers.map (fun p => p.title.getD []))
  let words := wordRuns (lowerStr all_text)
  let word_freq := wordFreq words
  let query_words := splitWS (lowerStr query)
  let top_words := (sortDesc word_freq).take 10
  ((top_words.filter (fun wf => ¬ wf.1 ∈ query_words ∧ wf.2 > 1)).map
    (fun wf => query ++ ' ' :: wf.1)).take 5

/-- Method `smart_autocomplete`.  The call
`difflib.get_close_matches(prefix, paper_titles, n=3, cutoff=0.6)` is an
external library computation over IEEE floats; its result list is taken as
the parameter `fuzzy_matches`.  The three candidate sources are concatenated,
deduplicated by the `seen` loop keeping first occurrences, and capped at 8. -/
def smart_autocomplete (fuzzy_matches : List Str) (pfx : Str)
    (paper_titles search_history : List Str) : List Str :=
  let title_matches := paper_titles.filter (fun title =>
    (lowerStr pfx).isPrefixOf (lowerStr title))
  let history_matches := search_history.filter (fun q => substrB (lowerStr pfx) (lowerStr q))
  let suggestions := title_matches.take 3 ++ fuzzy_matches ++ history_matches.take 2
  (dedupSeen [] suggestions).take 8

/-- Method `_get_citation_count`: absent field defaults to 0, the sentinel
string maps to 0, and any `int(...)` failure is caught and mapped to 0. -/
def _get_citation_count (paper : Paper) : Int :=
  let citations := paper.citation_count.getD (.pInt 0)
  if citations = .pStr (chars "Citation Count Not Available") then 0
  else (pyIntOf citations).getD 0

/-- Method `_is_recent_paper`: the sentinel year fails, an unparseable year
fails (`ValueError`/`TypeError` caught), a year outside `datetime`'s range
fails (`ValueError` caught), otherwise compare January 1 of the year against
the cutoff instant. -/
def _is_recent_paper (paper : Paper) (cutoff_date : Int) : Bool :=
  match paper.year with
  | none => false
  | some y =>
    if y = .pStr (chars "Year Not Available") then false
    else
      match pyIntOf y with
      | none => false
      | some yi =>
        match datetimeJan1 yi with
        | none => false
        | some d => cutoff_date ≤ d

/-- The inclusive citation range of `filters['citation_range']`: optional
`min` (default 0) and optional `max` (`float('inf')`, i.e. unbounded, when
absent). -/
structure CitRange where
  min : Option Int
  max : Option Int
deriving DecidableEq

/-- The filter configuration dict: each field may be absent. -/
structure FilterConfig where
  author_name : Option Str
  title_keywords : Option Str
  citation_range : Option CitRange
  venue : Option Str
  recency_days : Option Int
deriving DecidableEq

/-- `'author_name' in filters and filters['author_name']`: present and truthy. -/
def authorActive (f : FilterConfig) : Bool :=
  match f.author_name with
  | some a => ! a.isEmpty
  | none => false

/-- `'title_keywords' in filters and filters['title_keywords']`. -/
def titleActive (f : FilterConfig) : Bool :=
  match f.title_keywords with
  | some a => ! a.isEmpty
  | none => false

/-- `'citation_range' in filters`: presence alone activates this stage. -/
def citationActive (f : FilterConfig) : Bool := f.citation_range.isSome

/-- `'venue' in filters and filters['venue']`. -/
def venueActive (f : FilterConfig) : Bool :=
  match f.venue with
  | some a => ! a.isEmpty
  | none => false

/-- `'recency_days' in filters and filters['recency_days']`: present and a
truthy (nonzero) integer. -/
def recencyActive (f : FilterConfig) : Bool :=
  match f.recency_days with
  | some d => d ≠ 0
  | none => false

/-- The author stage predicate: some author of the record passes the
similarity test (the external `SequenceMatcher(...).ratio() > 0.7` is the
oracle `sim`) against the lowercased query. -/
def authorPred (sim : Str → Str → Bool) (f : FilterConfig) (paper : Paper) : Bool :=
  let author_query := lowerStr (f.author_name.getD [])
  (splitCommaSpace (paper.authors.getD [])).any (fun author => sim author_query (lowerStr author))

/-- The title-keyword stage predicate: any comma-separated keyword (trimmed,
lowercased) is a substring of the lowercased title. -/
def titlePred (f : FilterConfig) (paper : Paper) : Bool :=
  let keywords := (splitOnComma (f.title_keywords.getD [])).map (fun kw => lowerStr (trimStr kw))
  keywords.any (fun kw => substrB kw (lowerStr (paper.title.getD [])))

/-- The citation-range stage predicate. -/
def citationPred (f : FilterConfig) (paper : Paper) : Bool :=
  match f.citation_range with
  | none => true
  | some cr =>
    let min_cit := cr.min.getD 0
    (decide (min_cit ≤ _get_citation_count paper)) &&
      (match cr.max with
       | none => true
       | some mx => decide (_get_citation_count paper ≤ mx))

/-- The venue stage predicate: case-insensitive substring match. -/
def venuePred (f : FilterConfig) (paper : Paper) : Bool :=
  substrB (lowerStr (f.venue.getD [])) (lowerStr (paper.venue.getD []))

/-- The recency stage predicate: `cutoff_date = now - timedelta(days=...)`. -/
def recencyPred (now : Int) (f : FilterConfig) (paper : Paper) : Bool :=
  _is_recent_paper paper (now - 86400 * f.recency_days.getD 0)

/-- Method `filter_papers_advanced`: the five stages applied in source order,
each narrowing the candidate list when active.  `sim` is the external difflib
similarity oracle and `now` the external `datetime.now()`. -/
def filter_papers_advanced (sim : Str → Str → Bool) (now : Int)
    (papers : List Paper) (filters : FilterConfig) : List Paper :=
  let fp0 := papers
  let fp1 := if authorActive filters then fp0.filter (authorPred sim filters) else fp0
  let fp2 := if titleActive filters then fp1.filter (titlePred filters) else fp1
  let fp3 := if citationActive filters then fp2.filter (citationPred filters) else fp2
  let fp4 := if venueActive filters then fp3.filter (venuePred filters) else fp3
  let fp5 := if recencyActive filters then fp4.filter (recencyPred now filters) else fp4
  fp5

/-- The five stages as predicates lifted over their activity flags: an
inactive stage imposes no constraint. -/
def stagePreds (sim : Str → Str → Bool) (now : Int) (f : FilterConfig) :
    List (Paper → Bool) :=
  [fun p => ! authorActive f || authorPred sim f p,
   fun p => ! titleActive f || titlePred f p,
   fun p => ! citationActive f || citationPred f p,
   fun p => ! venueActive f || venuePred f p,
   fun p => ! recencyActive f || recencyPred now f p]

/-- The logical AND of all active predicates. -/
def conjPred (sim : Str → Str → Bool) (now : Int) (f : FilterConfig) (p : Paper) : Bool :=
  (stagePreds sim now f).all (fun g => g p)

end AdvancedSearchEngine

/-- The claim's description of the deduplication: keep each string's first
occurrence, drop later duplicates. -/
def dedupFirstOcc (l : List Str) : List Str :=
  match l with
  | [] => []
  | x :: xs => x :: dedupFirstOcc (xs.filter (fun y => y ≠ x))
termination_by l.length
decreasing_by
  simp only [List.length_cons]
  have h := List.length_filter_le (fun z => decide (z ≠ y)) ys
  omega

namespace AdvancedSearchEngine

/-- The descending-sorted frequency table that `suggest_related_queries`
derives from the record titles. -/
def titleWordFreqSorted (papers : List Paper) : List (Str × Nat) :=
  sortDesc (wordFreq (wordRuns (lowerStr (intercalateSpace
    (papers.map (fun p => p.title.getD []))))))

end AdvancedSearchEngine

theorem strLt_cons_iff {x y : Char} {xs ys : Str} :
    strLt (x :: xs) (y :: ys) = true ↔ x < y ∨ (x = y ∧ strLt xs ys = true) := by
  simp only [strLt]
  by_cases h : x < y
  · simp [h]
  · by_cases h' : y < x
    · have hne : x ≠ y := by
        intro he
        rw [he] at h'
        exact lt_irrefl y h'
      simp [h, h', hne]
    · have hxy : x = y := le_antisymm (not_lt.mp h') (not_lt.mp h)
      simp [h, h', hxy]

theorem strLt_irrefl (a : Str) : strLt a a = false := by
  induction a with
  | nil => rfl
  | cons c cs ih => simp [strLt, ih]

theorem strLt_trans {a b c : Str} (h1 : strLt a b = true) (h2 : strLt b c = true) :
    strLt a c = true := by
  induction a generalizing b c with
  | nil =>
    cases b with
    | nil => simp [strLt] at h1
    | cons y ys =>
      cases c with
      | nil => simp [strLt] at h2
      | cons z zs => rfl
  | cons x xs ih =>
    cases b with
    | nil => simp [strLt] at h1
    | cons y ys =>
      cases c with
      | nil => simp [strLt] at h2
      | cons z zs =>
        rw [strLt_cons_iff] at h1 h2 ⊢
        rcases h1 with h1 | ⟨h1e, h1t⟩
        · rcases h2 with h2 | ⟨h2e, h2t⟩
          · exact Or.inl (lt_trans h1 h2)
          · exact Or.inl (h2e ▸ h1)
        · rcases h2 with h2 | ⟨h2e, h2t⟩
          · exact Or.inl (h1e ▸ h2)
          · exact Or.inr ⟨h1e.trans h2e, ih h1t h2t⟩

theorem strLt_asymm {a b : Str} (h : strLt a b = true) : strLt b a = false := by
  by_contra hc
  have hba : strLt b a = true := by
    cases hb : strLt b a
    · exact absurd hb hc
    · rfl
  have := strLt_trans h hba
  rw [strLt_irrefl] at this
  exact Bool.false_ne_true this

theorem strLt_antisymm {a b : Str} (h1 : strLt a b = false) (h2 : strLt b a = false) :
    a = b := by
  induction a generalizing b with
  | nil =>
    cases b with
    | nil => rfl
    | cons y ys => simp [strLt] at h1
  | cons x xs ih =>
    cases b with
    | nil => simp [strLt] at h2
    | cons y ys =>
      simp only [strLt] at h1 h2
      by_cases hxy : x < y
      · simp [hxy] at h1
      · by_cases hyx : y < x
        · rw [if_pos hyx] at h2
          exact absurd h2 (by simp)
        · have hxe : x = y := le_antisymm (not_lt.mp hyx) (not_lt.mp hxy)
          simp only [hxy, if_false, hyx, if_false] at h1
          simp only [hyx, if_false, hxy, if_false] at h2
          rw [hxe, ih h1 h2]

theorem strLe_of_lt {a b : Str} (h : strLt a b = true) : strLe a b = true := by
  unfold strLe
  rw [strLt_asymm h]
  rfl

theorem strLe_refl (a : Str) : strLe a a = true := by
  unfold strLe
  rw [strLt_irrefl]
  rfl

theorem strLt_of_lt_of_le {a b c : Str} (h1 : strLt a b = true) (h2 : strLe b c = true) :
    strLt a c = true := by
  unfold strLe at h2
  rw [Bool.not_eq_true'] at h2
  cases hac : strLt a c
  · cases hca : strLt c a
    · have : a = c := strLt_antisymm hac hca
      rw [this] at h1
      rw [h1] at h2
      exact absurd h2 (by simp)
    · have := strLt_trans hca h1
      rw [this] at h2
      exact absurd h2 (by simp)
  · rfl

theorem strLt_of_le_of_lt {a b c : Str} (h1 : strLe a b = true) (h2 : strLt b c = true) :
    strLt a c = true := by
  unfold strLe at h1
  rw [Bool.not_eq_true'] at h1
  cases hac : strLt a c
  · cases hca : strLt c a
    · have heq : a = c := strLt_antisymm hac hca
      rw [← heq] at h2
      rw [h2] at h1
      exact absurd h1 (by simp)
    · have hba := strLt_trans h2 hca
      rw [hba] at h1
      exact absurd h1 (by simp)
  · rfl

theorem strLe_trans {a b c : Str} (h1 : strLe a b = true) (h2 : strLe b c = true) :
    strLe a c = true := by
  unfold strLe at h1 h2 ⊢
  rw [Bool.not_eq_true'] at h1 h2 ⊢
  cases hca : strLt c a
  · rfl
  · have := strLt_of_lt_of_le hca (by unfold strLe; rw [h1]; rfl)
    rw [this] at h2
    exact h2

theorem strLt_of_le_of_ne {a b : Str} (h1 : strLe a b = true) (h2 : a ≠ b) :
    strLt a b = true := by
  unfold strLe at h1
  rw [Bool.not_eq_true'] at h1
  cases hab : strLt a b
  · exact absurd (strLt_antisymm hab h1) h2
  · rfl

namespace AVLTree

theorem inorder_rotate_left (t : AVL) : (rotate_left t).inorder = t.inorder := by
  cases t with
  | nil => rfl
  | node zt zh zl zr =>
    cases zr with
    | nil => rfl
    | node yt yh yl yr => simp [rotate_left, AVL.inorder]

theorem inorder_rotate_right (t : AVL) : (rotate_right t).inorder = t.inorder := by
  cases t with
  | nil => rfl
  | node zt zh zl zr =>
    cases zl with
    | nil => rfl
    | node yt yh yl yr => simp [rotate_right, AVL.inorder]

theorem inorder_balance_tree (t : AVL) : (balance_tree t).inorder = t.inorder := by
  cases t with
  | nil => rfl
  | node nt nh nl nr =>
    simp only [balance_tree]
    split
    · rw [inorder_rotate_right]
    · split
      · rw [inorder_rotate_left]
      · split
        · rw [inorder_rotate_right]
          simp [AVL.inorder, inorder_rotate_left]
        · split
          · rw [inorder_rotate_left]
            simp [AVL.inorder, inorder_rotate_right]
          · rfl

theorem inorder_insert (t : AVL) (x : Str) :
    (insert t x).inorder.Perm (x :: t.inorder) := by
  induction t with
  | nil => simp [insert, AVL.inorder]
  | node t h l r ihl ihr =>
    simp only [insert]
    split
    · rw [inorder_balance_tree]
      simp only [AVL.inorder]
      exact ihl.append_right _
    · rw [inorder_balance_tree]
      simp only [AVL.inorder]
      have p1 : ((t : Str) :: (insert r x).inorder).Perm (t :: x :: r.inorder) :=
        ihr.cons t
      have p2 : ((t : Str) :: x :: r.inorder).Perm (x :: t :: r.inorder) :=
        List.Perm.swap x t _
      have p3 := (p1.trans p2).append_left l.inorder
      exact p3.trans List.perm_middle

theorem mem_inorder_insert {t : AVL} {x s : Str} :
    s ∈ (insert t x).inorder ↔ s = x ∨ s ∈ t.inorder := by
  rw [(inorder_insert t x).mem_iff]
  simp

theorem orderedWeak_node_iff {t : Str} {h : Nat} {l r : AVL} :
    AVL.orderedWeak (.node t h l r) = true ↔
      (∀ s ∈ l.inorder, strLe s t = true) ∧ (∀ s ∈ r.inorder, strLe t s = true) ∧
        AVL.orderedWeak l = true ∧ AVL.orderedWeak r = true := by
  simp [AVL.orderedWeak, List.all_eq_true, and_assoc]

theorem orderedStrict_node_iff {t : Str} {h : Nat} {l r : AVL} :
    AVL.orderedStrict (.node t h l r) = true ↔
      (∀ s ∈ l.inorder, strLt s t = true) ∧ (∀ s ∈ r.inorder, strLe t s = true) ∧
        AVL.orderedStrict l = true ∧ AVL.orderedStrict r = true := by
  simp [AVL.orderedStrict, List.all_eq_true, and_assoc]

theorem orderedWeak_rotate_left {t : AVL} (h : AVL.orderedWeak t = true) :
    AVL.orderedWeak (rotate_left t) = true := by
  cases t with
  | nil => exact h
  | node zt zh zl zr =>
    cases zr with
    | nil => exact h
    | node yt yh yl yr =>
      rw [orderedWeak_node_iff] at h
      obtain ⟨hl, hr, hwl, hwr⟩ := h
      rw [orderedWeak_node_iff] at hwr
      obtain ⟨hyl, hyr, hwyl, hwyr⟩ := hwr
      have hzy : strLe zt yt = true := hr yt (by simp [AVL.inorder])
      simp only [rotate_left]
      rw [orderedWeak_node_iff]
      refine ⟨?_, hyr, ?_, hwyr⟩
      · intro s hs
        simp only [AVL.inorder, List.mem_append, List.mem_cons] at hs
        rcases hs with hs | hs | hs
        · exact strLe_trans (hl s hs) hzy
        · exact hs ▸ hzy
        · exact hyl s hs
      · rw [orderedWeak_node_iff]
        refine ⟨hl, ?_, hwl, hwyl⟩
        intro s hs
        exact hr s (by simp [AVL.inorder, hs])

theorem orderedWeak_rotate_right {t : AVL} (h : AVL.orderedWeak t = true) :
    AVL.orderedWeak (rotate_right t) = true := by
  cases t with
  | nil => exact h
  | node zt zh zl zr =>
    cases zl with
    | nil => exact h
    | node yt yh yl yr =>
      rw [orderedWeak_node_iff] at h
      obtain ⟨hl, hr, hwl, hwr⟩ := h
      rw [orderedWeak_node_iff] at hwl
      obtain ⟨hyl, hyr, hwyl, hwyr⟩ := hwl
      have hyz : strLe yt zt = true := hl yt (by simp [AVL.inorder])
      simp only [rotate_right]
      rw [orderedWeak_node_iff]
      refine ⟨hyl, ?_, hwyl, ?_⟩
      · intro s hs
        simp only [AVL.inorder, List.mem_append, List.mem_cons] at hs
        rcases hs with hs | hs | hs
        · exact hyr s hs
        · exact hs ▸ hyz
        · exact strLe_trans hyz (hr s hs)
      · rw [orderedWeak_node_iff]
        refine ⟨?_, hr, hwyr, hwr⟩
        intro s hs
        exact hl s (by simp [AVL.inorder, hs])

theorem orderedWeak_balance_tree {t : AVL} (h : AVL.orderedWeak t = true) :
    AVL.orderedWeak (balance_tree t) = true := by
  cases t with
  | nil => exact h
  | node nt nh nl nr =>
    simp only [balance_tree]
    split
    · exact orderedWeak_rotate_right h
    · split
      · exact orderedWeak_rotate_left h
      · split
        · apply orderedWeak_rotate_right
          rw [orderedWeak_node_iff] at h ⊢
          obtain ⟨hl, hr, hwl, hwr⟩ := h
          exact ⟨by rw [inorder_rotate_left]; exact hl, hr, orderedWeak_rotate_left hwl, hwr⟩
        · split
          · apply orderedWeak_rotate_left
            rw [orderedWeak_node_iff] at h ⊢
            obtain ⟨hl, hr, hwl, hwr⟩ := h
            exact ⟨hl, by rw [inorder_rotate_right]; exact hr, hwl,
              orderedWeak_rotate_right hwr⟩
          · exact h

theorem orderedWeak_insert {t : AVL} (x : Str) (h : AVL.orderedWeak t = true) :
    AVL.orderedWeak (insert t x) = true := by
  induction t with
  | nil => simp [insert, AVL.orderedWeak, AVL.inorder]
  | node t ht l r ihl ihr =>
    rw [orderedWeak_node_iff] at h
    obtain ⟨hl, hr, hwl, hwr⟩ := h
    simp only [insert]
    split
    · next hx =>
      apply orderedWeak_balance_tree
      rw [orderedWeak_node_iff]
      refine ⟨?_, hr, ihl hwl, hwr⟩
      intro s hs
      rcases mem_inorder_insert.mp hs with rfl | hs
      · exact strLe_of_lt hx
      · exact hl s hs
    · next hx =>
      have hxf : strLt x t = false := by
        cases hb : strLt x t
        · rfl
        · exact absurd hb hx
      apply orderedWeak_balance_tree
      rw [orderedWeak_node_iff]
      refine ⟨hl, ?_, hwl, ihr hwr⟩
      intro s hs
      rcases mem_inorder_insert.mp hs with rfl | hs
      · unfold strLe
        rw [hxf]
        rfl
      · exact hr s hs

theorem inorder_buildAVL_aux (ts : List Str) (acc : AVL) :
    ((ts.foldl insert acc).inorder).Perm (acc.inorder ++ ts) := by
  induction ts generalizing acc with
  | nil => simp
  | cons x ts ih =>
    have h1 := ih (insert acc x)
    have h2 : ((insert acc x).inorder ++ ts).Perm (acc.inorder ++ x :: ts) := by
      have h3 := (inorder_insert acc x).append_right ts
      exact h3.trans List.perm_middle.symm
    exact h1.trans h2

theorem inorder_buildAVL (titles : List Str) : ((buildAVL titles).inorder).Perm titles :=
  inorder_buildAVL_aux titles .nil

theorem orderedWeak_buildAVL (titles : List Str) :
    AVL.orderedWeak (buildAVL titles) = true := by
  suffices h : ∀ (ts : List Str) (acc : AVL), AVL.orderedWeak acc = true →
      AVL.orderedWeak (ts.foldl insert acc) = true from h titles .nil rfl
  intro ts
  induction ts with
  | nil => exact fun acc h => h
  | cons x ts ih => exact fun acc h => ih (insert acc x) (orderedWeak_insert x h)

theorem orderedStrict_of_weak_nodup {t : AVL} (hw : AVL.orderedWeak t = true)
    (hn : t.inorder.Nodup) : AVL.orderedStrict t = true := by
  induction t with
  | nil => rfl
  | node t ht l r ihl ihr =>
    rw [orderedWeak_node_iff] at hw
    obtain ⟨hl, hr, hwl, hwr⟩ := hw
    simp only [AVL.inorder] at hn
    rw [List.nodup_append] at hn
    obtain ⟨hnl, hntr, hdisj⟩ := hn
    rw [List.nodup_cons] at hntr
    obtain ⟨htr, hnr⟩ := hntr
    rw [orderedStrict_node_iff]
    refine ⟨?_, hr, ihl hwl hnl, ihr hwr hnr⟩
    intro s hs
    apply strLt_of_le_of_ne (hl s hs)
    intro heq
    exact hdisj hs (by simp [heq])

theorem autocomplete_perm (t : AVL) (pfx : Str) :
    (autocomplete t pfx).Perm (t.inorder.filter (fun s => pfx.isPrefixOf s)) := by
  induction t with
  | nil => rfl
  | node t h l r ihl ihr =>
    simp only [autocomplete, AVL.inorder, List.filter_append, List.filter_cons]
    by_cases hp : pfx.isPrefixOf t = true
    · simp only [hp, if_pos]
      exact ((ihl.append ihr).cons t).trans List.perm_middle.symm
    · simp only [hp, if_neg, Bool.false_eq_true, not_false_iff]
      simp only [List.nil_append]
      exact ihl.append ihr

end AVLTree

/-- C1: the specification claims that after any sequence of inserts every node
of the Title Index satisfies the AVL balance invariant.  The code violates it:
inserting the titles "d", "b", "e", "a", "c", "0" (in this order) produces a
tree containing a node ("b") whose left subtree has height 2 and whose right
subtree is absent (height 0).  The broken rebalancing guards compare the
child's key against the node's own key, which under BST ordering makes the
left-left and right-right rotation cases unreachable. -/
theorem avl_balance_violated_on_six_inserts :
    AVL.specBalanced (buildAVL ([ "d", "b", "e", "a", "c", "0" ].map chars)) = false := by
  decide

/-- C3: for every Title Index tree and every prefix, `autocomplete` returns
exactly the stored titles that start with the prefix — as multisets, nothing
is lost and nothing is duplicated; only the order is traversal-defined. -/
theorem autocomplete_prefix_complete (t : AVL) (pfx : Str) :
    ((AVLTree.autocomplete t pfx : List Str) : Multiset Str) =
      ((t.inorder.filter (fun s => pfx.isPrefixOf s) : List Str) : Multiset Str) :=
  Multiset.coe_eq_coe.mpr (AVLTree.autocomplete_perm t pfx)

/-- C10 counterexample: the strict binary-search-tree invariant ("all titles
in a left subtree strictly less than the node's title") does not survive the
rebalancing rotations when duplicate titles are inserted.  Inserting
"c", "a", "d", "a", "b" triggers the left-right branch, whose inner
`rotate_left` moves the duplicate "a" (inserted to the right) into a left
subtree, so the final tree has a node "a" whose left subtree contains "a". -/
theorem avl_strict_bst_violation :
    AVL.orderedStrict (buildAVL ([ "c", "a", "d", "a", "b" ].map chars)) = false := by
  decide

/-- C10 (amended): after any sequence of inserts into the Title Index the
multiset of stored titles equals the multiset of inserted titles (rotations
neither drop nor duplicate a node), the weak BST ordering invariant (left
subtree `<=` node `<=` right subtree) holds at every node, and when the
inserted titles are pairwise distinct the strict invariant claimed by the
specification (left strictly below the node, right greater or equal) holds as
well. -/
theorem avl_insert_contents_and_order (titles : List Str) :
    (((buildAVL titles).inorder : List Str) : Multiset Str) = (titles : Multiset Str) ∧
      AVL.orderedWeak (buildAVL titles) = true ∧
      (titles.Nodup → AVL.orderedStrict (buildAVL titles) = true) := by
  refine ⟨Multiset.coe_eq_coe.mpr (AVLTree.inorder_buildAVL titles),
    AVLTree.orderedWeak_buildAVL titles, ?_⟩
  intro hnd
  exact AVLTree.orderedStrict_of_weak_nodup (AVLTree.orderedWeak_buildAVL titles)
    (((AVLTree.inorder_buildAVL titles).nodup_iff).mpr hnd)

/-- Witness for C10 (amended) at a concrete distinct-title input. -/
theorem avl_insert_contents_and_order_witness :
    AVL.orderedStrict (buildAVL ([ "b", "a", "c" ].map chars)) = true :=
  (avl_insert_contents_and_order ([ "b", "a", "c" ].map chars)).2.2 (by decide)

namespace RBTree

theorem bh_node_eq {c : RBColor} {t a : Str} {l r : RBT} {m : Nat}
    (hl : l.bh = some m) (hr : r.bh = some m) :
    (RBT.node c t a l r).bh = some (m + bhC c) := by
  cases c <;> simp [RBT.bh, hl, hr, bhC]

theorem bh_node_inv {c : RBColor} {t a : Str} {l r : RBT} {k : Nat}
    (h : (RBT.node c t a l r).bh = some k) :
    ∃ m, l.bh = some m ∧ r.bh = some m ∧ k = m + bhC c := by
  simp only [RBT.bh] at h
  cases hl : l.bh with
  | none => simp only [hl] at h; exact absurd h (by simp)
  | some m =>
    cases hr : r.bh with
    | none => simp only [hl, hr] at h; exact absurd h (by simp)
    | some n =>
      simp only [hl, hr] at h
      by_cases hmn : m = n
      · subst hmn
        rw [if_pos rfl] at h
        refine ⟨m, rfl, rfl, ?_⟩
        cases c <;> simp only [bhC] <;> simp only [Option.some.injEq] at h <;> omega
      · rw [if_neg hmn] at h
        simp at h

theorem redRedFree_node_iff {c : RBColor} {t a : Str} {l r : RBT} :
    (RBT.node c t a l r).redRedFree = true ↔
      (c = RBColor.red → rootColor l = RBColor.black ∧ rootColor r = RBColor.black) ∧
        l.redRedFree = true ∧ r.redRedFree = true := by
  cases c <;> simp [RBT.redRedFree, and_assoc]

theorem rootColor_blacken (t : RBT) : rootColor (blacken t) = RBColor.black := by
  cases t <;> rfl

theorem inorder_blacken (t : RBT) : (blacken t).inorder_authors = t.inorder_authors := by
  cases t <;> rfl

theorem redRedFree_blacken {t : RBT} (h : t.redRedFree = true) :
    (blacken t).redRedFree = true := by
  cases t with
  | nil => rfl
  | node c tt a l r =>
    rw [redRedFree_node_iff] at h
    rw [blacken, redRedFree_node_iff]
    exact ⟨by intro hc; exact absurd hc (by simp), h.2.1, h.2.2⟩

theorem bh_blacken_of_red {t : RBT} {n : Nat} (hc : rootColor t = RBColor.red)
    (h : t.bh = some n) : (blacken t).bh = some (n + 1) := by
  cases t with
  | nil => simp [rootColor] at hc
  | node c tt a l r =>
    obtain ⟨m, hl, hr, hk⟩ := bh_node_inv h
    have : c = RBColor.red := hc
    subst this
    simp [bhC] at hk
    subst hk
    rw [blacken, bh_node_eq hl hr]
    simp [bhC]

theorem bh_blacken_isSome {t : RBT} {n : Nat} (h : t.bh = some n) :
    ((blacken t).bh).isSome = true := by
  cases t with
  | nil => simp [blacken, RBT.bh]
  | node c tt a l r =>
    obtain ⟨m, hl, hr, _⟩ := bh_node_inv h
    rw [blacken, bh_node_eq hl hr]
    rfl

theorem rootColor_plug1 (s : ZStep) (z : RBT) : rootColor (plug1 s z) = s.c := by
  cases hd : s.d <;> simp [plug1, hd, rootColor]

theorem bh_plug1 {s : ZStep} {z : RBT} {n : Nat} (hz : z.bh = some n)
    (hs : s.sib.bh = some n) : (plug1 s z).bh = some (stepBH s n) := by
  cases hd : s.d <;> simp only [plug1, hd] <;> rw [bh_node_eq] <;>
    first
      | exact hz
      | exact hs
      | rfl

theorem redRedFree_plug1 {s : ZStep} {z : RBT} (hz : z.redRedFree = true)
    (hs : s.sib.redRedFree = true)
    (hred : s.c = RBColor.red →
      rootColor z = RBColor.black ∧ rootColor s.sib = RBColor.black) :
    (plug1 s z).redRedFree = true := by
  cases hd : s.d <;> simp only [plug1, hd] <;> rw [redRedFree_node_iff]
  · exact ⟨fun hc => hred hc, hz, hs⟩
  · exact ⟨fun hc => ⟨(hred hc).2, (hred hc).1⟩, hs, hz⟩

theorem bh_plug {ctx : List ZStep} {z : RBT} {n : Nat} (hok : CtxOk ctx n)
    (hz : z.bh = some n) : ∃ k, (plug z ctx).bh = some k := by
  induction ctx generalizing z n with
  | nil => exact ⟨n, hz⟩
  | cons s rest ih =>
    obtain ⟨hsib_rrf, hsib_bh, hred, hrest⟩ := hok
    exact ih hrest (bh_plug1 hz hsib_bh)

theorem redRedFree_plug {ctx : List ZStep} {z : RBT} {n : Nat} (hok : CtxOk ctx n)
    (hz : z.redRedFree = true)
    (hhead : rootColor z = RBColor.red → headBlackOrNil ctx) :
    (plug z ctx).redRedFree = true := by
  induction ctx generalizing z n with
  | nil => exact hz
  | cons s rest ih =>
    obtain ⟨hsib_rrf, hsib_bh, hred, hrest⟩ := hok
    refine ih hrest (redRedFree_plug1 hz hsib_rrf ?_) ?_
    · intro hc
      refine ⟨?_, (hred hc).1⟩
      cases hzc : rootColor z with
      | black => rfl
      | red => exact absurd (hhead hzc) (by simp [headBlackOrNil, hc])
    · intro hc
      rw [rootColor_plug1] at hc
      obtain ⟨g, rest2, hg, hgc⟩ := (hred hc).2
      simp [hg, headBlackOrNil, hgc]

theorem RBInv_blacken_plug {ctx : List ZStep} {z : RBT} {n : Nat} (hok : CtxOk ctx n)
    (hz : z.bh = some n) (hrrf : z.redRedFree = true)
    (hhead : rootColor z = RBColor.red → headBlackOrNil ctx) :
    RBInv (blacken (plug z ctx)) := by
  obtain ⟨k, hbh⟩ := bh_plug hok hz
  exact ⟨rootColor_blacken _, redRedFree_blacken (redRedFree_plug hok hrrf hhead),
    bh_blacken_isSome hbh⟩

theorem descend_CtxOk {author : Str} {t : RBT} {ctx : List ZStep} {n : Nat}
    (hrrf : t.redRedFree = true) (hbh : t.bh = some n) (hok : CtxOk ctx n)
    (hred : rootColor t = RBColor.red → headBlackNe ctx) :
    CtxOk (descend author t ctx) 0 := by
  induction t generalizing ctx n with
  | nil =>
    simp only [RBT.bh, Option.some.injEq] at hbh
    rw [descend]
    rwa [← hbh] at hok
  | node c tt a l r ihl ihr =>
    obtain ⟨m, hl, hr, hk⟩ := bh_node_inv hbh
    rw [redRedFree_node_iff] at hrrf
    obtain ⟨hcc, hlrrf, hrrrf⟩ := hrrf
    simp only [descend]
    split
    · apply ihl hlrrf hl
      · refine ⟨hrrrf, hr, ?_, ?_⟩
        · intro hcr
          exact ⟨(hcc hcr).2, hred hcr⟩
        · have hst : stepBH ⟨ZDir.left, c, tt, a, r⟩ m = n := by simp [stepBH, hk]
          rwa [hst]
      · intro hlr
        have hcb : c = RBColor.black := by
          cases c
          · exact absurd (hcc rfl).1 (by rw [hlr]; simp)
          · rfl
        exact ⟨_, _, rfl, hcb⟩
    · apply ihr hrrrf hr
      · refine ⟨hlrrf, hl, ?_, ?_⟩
        · intro hcr
          exact ⟨(hcc hcr).1, hred hcr⟩
        · have hst : stepBH ⟨ZDir.right, c, tt, a, l⟩ m = n := by simp [stepBH, hk]
          rwa [hst]
      · intro hrr
        have hcb : c = RBColor.black := by
          cases c
          · exact absurd (hcc rfl).2 (by rw [hrr]; simp)
          · rfl
        exact ⟨_, _, rfl, hcb⟩

theorem color_not_black {c : RBColor} (h : ¬ c = RBColor.black) : c = RBColor.red := by
  cases c
  · rfl
  · exact absurd rfl h

theorem color_not_red {c : RBColor} (h : ¬ c = RBColor.red) : c = RBColor.black := by
  cases c
  · exact absurd rfl h
  · rfl

theorem ctxok_cons_red {s g : ZStep} {rest : List ZStep} {n : Nat}
    (hok : CtxOk (s :: g :: rest) n) (hscr : s.c = RBColor.red) :
    s.sib.redRedFree = true ∧ s.sib.bh = some n ∧ rootColor s.sib = RBColor.black ∧
      g.c = RBColor.black ∧ g.sib.redRedFree = true ∧ g.sib.bh = some n ∧
      CtxOk rest (n + 1) := by
  obtain ⟨h1, h2, h3, h4⟩ := hok
  obtain ⟨hsib_black, g', rest2', hcons, hgc'⟩ := h3 hscr
  have hgc : g.c = RBColor.black := by
    injection hcons with ha hb
    rw [ha]
    exact hgc'
  have hstep : stepBH s n = n := by simp [stepBH, hscr, bhC]
  rw [hstep] at h4
  obtain ⟨h5, h6, _h7, h8⟩ := h4
  have hstepg : stepBH g n = n + 1 := by simp [stepBH, hgc, bhC]
  rw [hstepg] at h8
  exact ⟨h1, h2, hsib_black, hgc, h5, h6, h8⟩

theorem fix_insertion_black {s : ZStep} {rest : List ZStep} {z : RBT}
    (hsc : s.c = RBColor.black) :
    fix_insertion (s :: rest) z = blacken (plug z (s :: rest)) := by
  cases rest with
  | nil => rw [fix_insertion.eq_2, if_pos hsc]
  | cons g rest2 =>
    cases z with
    | nil =>
      rw [fix_insertion.eq_5 s g rest2 RBT.nil
        (by intro _ _ _ _ _ _ h; cases h) (by intro _ _ _ _ _ _ h; cases h), if_pos hsc]
    | node c zt za zl zr =>
      cases hsd : s.d with
      | left =>
        rw [fix_insertion.eq_4 s g rest2 c zt za zl zr hsd
          (by intro _ _ _ _ _ hcontra _; rw [hsd] at hcontra; exact absurd hcontra (by simp)),
          if_pos hsc]
      | right => rw [fix_insertion.eq_3 s g rest2 c zt za zl zr hsd, if_pos hsc]

theorem fix_insertion_inv :
    ∀ (ctx : List ZStep) (z : RBT) (n : Nat), CtxOk ctx n → z.bh = some n →
      z.redRedFree = true → rootColor z = RBColor.red →
      RBInv (fix_insertion ctx z) := by
  intro ctx z
  induction ctx, z using fix_insertion.induct with
  | case1 z =>
    intro n hok hbh hrrf hrc
    simp only [fix_insertion]
    exact ⟨rootColor_blacken _, redRedFree_blacken hrrf, bh_blacken_isSome hbh⟩
  | case2 s rest z hsc =>
    intro n hok hbh hrrf hrc
    rw [fix_insertion_black hsc]
    exact RBInv_blacken_plug hok hbh hrrf (fun _ => hsc)
  | case3 s z hsc =>
    intro n hok hbh hrrf hrc
    have hscr : s.c = RBColor.red := by
      cases hc : s.c
      · rfl
      · exact absurd hc hsc
    obtain ⟨g, rest2, hg, hgc⟩ := (hok.2.2.1 hscr).2
    exact absurd hg (by simp)
  | case4 s z hsc g rest hgd hunc ih =>
    intro n hok hbh hrrf hrc
    have hscr : s.c = RBColor.red := color_not_black hsc
    obtain ⟨hs_rrf, hs_bh, hs_sib_black, hgc, hg_rrf, hg_bh, hok3⟩ := ctxok_cons_red hok hscr
    have hbp : (plug1 { s with c := RBColor.black } z).bh = some (n + 1) := by
      have hb := bh_plug1 (s := { s with c := RBColor.black }) hbh hs_bh
      simpa [stepBH, bhC] using hb
    have hbu : (blacken g.sib).bh = some (n + 1) := bh_blacken_of_red hunc hg_bh
    have hbz' : (RBT.node RBColor.red g.t g.a (plug1 { s with c := RBColor.black } z)
        (blacken g.sib)).bh = some (n + 1) := by
      rw [bh_node_eq hbp hbu]
      simp [bhC]
    have hrz' : (RBT.node RBColor.red g.t g.a (plug1 { s with c := RBColor.black } z)
        (blacken g.sib)).redRedFree = true := by
      rw [redRedFree_node_iff]
      refine ⟨fun _ => ⟨?_, rootColor_blacken _⟩, ?_, redRedFree_blacken hg_rrf⟩
      · rw [rootColor_plug1]
      · exact redRedFree_plug1 hrrf hs_rrf (by intro hc; simp at hc)
    cases z with
    | nil => exact absurd hrc (by simp [rootColor])
    | node c zt za zl zr =>
      cases hsd : s.d with
      | left =>
        rw [fix_insertion.eq_4 s g rest c zt za zl zr hsd
          (by intro c1 zt1 za1 zl1 zr1 hcontra _; rw [hsd] at hcontra; exact absurd hcontra (by simp)),
          if_neg hsc]
        simp only [hgd]
        rw [if_pos hunc]
        exact ih (n + 1) hok3 hbz' hrz' rfl
      | right =>
        rw [fix_insertion.eq_3 s g rest c zt za zl zr hsd, if_neg hsc]
        simp only [hgd]
        rw [if_pos hunc]
        exact ih (n + 1) hok3 hbz' hrz' rfl
  | case5 s hsc g rest hgd hunc c zt za zl zr hsd =>
    intro n hok hbh hrrf hrc
    have hscr : s.c = RBColor.red := color_not_black hsc
    have huncb : rootColor g.sib = RBColor.black := color_not_red hunc
    obtain ⟨hs_rrf, hs_bh, hs_sib_black, hgc, hg_rrf, hg_bh, hok3⟩ := ctxok_cons_red hok hscr
    have hcr : c = RBColor.red := hrc
    obtain ⟨m, hzl, hzr, hmn⟩ := bh_node_inv hbh
    have hmeq : n = m := by rw [hcr] at hmn; simp [bhC] at hmn; omega
    subst hmeq
    rw [redRedFree_node_iff] at hrrf
    obtain ⟨hzc, hzl_rrf, hzr_rrf⟩ := hrrf
    obtain ⟨hzl_black, hzr_black⟩ := hzc hcr
    rw [fix_insertion.eq_3 s g rest c zt za zl zr hsd, if_neg hsc]
    simp only [hgd]
    rw [if_neg hunc]
    apply RBInv_blacken_plug hok3 ?_ ?_ ?_
    · have h1 : (RBT.node RBColor.red s.t s.a s.sib zl).bh = some n := by
        rw [bh_node_eq hs_bh hzl]
        simp [bhC]
      have h2 : (RBT.node RBColor.red g.t g.a zr g.sib).bh = some n := by
        rw [bh_node_eq hzr hg_bh]
        simp [bhC]
      rw [bh_node_eq h1 h2]
      simp [bhC]
    · rw [redRedFree_node_iff]
      refine ⟨by intro hc; simp at hc, ?_, ?_⟩
      · rw [redRedFree_node_iff]
        exact ⟨fun _ => ⟨hs_sib_black, hzl_black⟩, hs_rrf, hzl_rrf⟩
      · rw [redRedFree_node_iff]
        exact ⟨fun _ => ⟨hzr_black, huncb⟩, hzr_rrf, hg_rrf⟩
    · intro hc
      simp [rootColor] at hc
  | case6 s z hsc g rest hgd hunc hno =>
    intro n hok hbh hrrf hrc
    have hscr : s.c = RBColor.red := color_not_black hsc
    have huncb : rootColor g.sib = RBColor.black := color_not_red hunc
    obtain ⟨hs_rrf, hs_bh, hs_sib_black, hgc, hg_rrf, hg_bh, hok3⟩ := ctxok_cons_red hok hscr
    cases z with
    | nil => exact absurd hrc (by simp [rootColor])
    | node c zt za zl zr =>
      cases hsd : s.d with
      | right => exact absurd (hno c zt za zl zr hsd rfl) (by simp)
      | left =>
        rw [fix_insertion.eq_4 s g rest c zt za zl zr hsd hno, if_neg hsc]
        simp only [hgd]
        rw [if_neg hunc]
        apply RBInv_blacken_plug hok3 ?_ ?_ ?_
        · have h2 : (RBT.node RBColor.red g.t g.a s.sib g.sib).bh = some n := by
            rw [bh_node_eq hs_bh hg_bh]
            simp [bhC]
          rw [bh_node_eq hbh h2]
          simp [bhC]
        · rw [redRedFree_node_iff]
          refine ⟨by intro hc; simp at hc, hrrf, ?_⟩
          rw [redRedFree_node_iff]
          exact ⟨fun _ => ⟨hs_sib_black, huncb⟩, hs_rrf, hg_rrf⟩
        · intro hc
          simp [rootColor] at hc
  | case7 s z hsc g rest hgd hunc ih =>
    intro n hok hbh hrrf hrc
    have hscr : s.c = RBColor.red := color_not_black hsc
    obtain ⟨hs_rrf, hs_bh, hs_sib_black, hgc, hg_rrf, hg_bh, hok3⟩ := ctxok_cons_red hok hscr
    have hbp : (plug1 { s with c := RBColor.black } z).bh = some (n + 1) := by
      have hb := bh_plug1 (s := { s with c := RBColor.black }) hbh hs_bh
      simpa [stepBH, bhC] using hb
    have hbu : (blacken g.sib).bh = some (n + 1) := bh_blacken_of_red hunc hg_bh
    have hbz' : (RBT.node RBColor.red g.t g.a (blacken g.sib)
        (plug1 { s with c := RBColor.black } z)).bh = some (n + 1) := by
      rw [bh_node_eq hbu hbp]
      simp [bhC]
    have hrz' : (RBT.node RBColor.red g.t g.a (blacken g.sib)
        (plug1 { s with c := RBColor.black } z)).redRedFree = true := by
      rw [redRedFree_node_iff]
      refine ⟨fun _ => ⟨rootColor_blacken _, ?_⟩, redRedFree_blacken hg_rrf, ?_⟩
      · rw [rootColor_plug1]
      · exact redRedFree_plug1 hrrf hs_rrf (by intro hc; simp at hc)
    cases z with
    | nil => exact absurd hrc (by simp [rootColor])
    | node c zt za zl zr =>
      cases hsd : s.d with
      | left =>
        rw [fix_insertion.eq_4 s g rest c zt za zl zr hsd
          (by intro c1 zt1 za1 zl1 zr1 hcontra _; rw [hsd] at hcontra; exact absurd hcontra (by simp)),
          if_neg hsc]
        simp only [hgd]
        rw [if_pos hunc]
        exact ih (n + 1) hok3 hbz' hrz' rfl
      | right =>
        rw [fix_insertion.eq_3 s g rest c zt za zl zr hsd, if_neg hsc]
        simp only [hgd]
        rw [if_pos hunc]
        exact ih (n + 1) hok3 hbz' hrz' rfl
  | case8 s hsc g rest hgd hunc c zt za zl zr hsd =>
    intro n hok hbh hrrf hrc
    have hscr : s.c = RBColor.red := color_not_black hsc
    have huncb : rootColor g.sib = RBColor.black := color_not_red hunc
    obtain ⟨hs_rrf, hs_bh, hs_sib_black, hgc, hg_rrf, hg_bh, hok3⟩ := ctxok_cons_red hok hscr
    have hcr : c = RBColor.red := hrc
    obtain ⟨m, hzl, hzr, hmn⟩ := bh_node_inv hbh
    have hmeq : n = m := by rw [hcr] at hmn; simp [bhC] at hmn; omega
    subst hmeq
    rw [redRedFree_node_iff] at hrrf
    obtain ⟨hzc, hzl_rrf, hzr_rrf⟩ := hrrf
    obtain ⟨hzl_black, hzr_black⟩ := hzc hcr
    rw [fix_insertion.eq_4 s g rest c zt za zl zr hsd
      (by intro c1 zt1 za1 zl1 zr1 hcontra _; rw [hsd] at hcontra; exact absurd hcontra (by simp)),
      if_neg hsc]
    simp only [hgd]
    rw [if_neg hunc]
    apply RBInv_blacken_plug hok3 ?_ ?_ ?_
    · have h1 : (RBT.node RBColor.red g.t g.a g.sib zl).bh = some n := by
        rw [bh_node_eq hg_bh hzl]
        simp [bhC]
      have h2 : (RBT.node RBColor.red s.t s.a zr s.sib).bh = some n := by
        rw [bh_node_eq hzr hs_bh]
        simp [bhC]
      rw [bh_node_eq h1 h2]
      simp [bhC]
    · rw [redRedFree_node_iff]
      refine ⟨by intro hc; simp at hc, ?_, ?_⟩
      · rw [redRedFree_node_iff]
        exact ⟨fun _ => ⟨huncb, hzl_black⟩, hg_rrf, hzl_rrf⟩
      · rw [redRedFree_node_iff]
        exact ⟨fun _ => ⟨hzr_black, hs_sib_black⟩, hzr_rrf, hs_rrf⟩
    · intro hc
      simp [rootColor] at hc
  | case9 s z hsc g rest hgd hunc hno =>
    intro n hok hbh hrrf hrc
    have hscr : s.c = RBColor.red := color_not_black hsc
    have huncb : rootColor g.sib = RBColor.black := color_not_red hunc
    obtain ⟨hs_rrf, hs_bh, hs_sib_black, hgc, hg_rrf, hg_bh, hok3⟩ := ctxok_cons_red hok hscr
    cases z with
    | nil => exact absurd hrc (by simp [rootColor])
    | node c zt za zl zr =>
      cases hsd : s.d with
      | left => exact absurd (hno c zt za zl zr hsd rfl) (by simp)
      | right =>
        rw [fix_insertion.eq_3 s g rest c zt za zl zr hsd, if_neg hsc]
        simp only [hgd]
        rw [if_neg hunc]
        apply RBInv_blacken_plug hok3 ?_ ?_ ?_
        · have h1 : (RBT.node RBColor.red g.t g.a g.sib s.sib).bh = some n := by
            rw [bh_node_eq hg_bh hs_bh]
            simp [bhC]
          rw [bh_node_eq h1 hbh]
          simp [bhC]
        · rw [redRedFree_node_iff]
          refine ⟨by intro hc; simp at hc, ?_, hrrf⟩
          rw [redRedFree_node_iff]
          exact ⟨fun _ => ⟨huncb, hs_sib_black⟩, hg_rrf, hs_rrf⟩
        · intro hc
          simp [rootColor] at hc

theorem RBInv_insert {t : RBT} (ht : RBInv t) (title author : Str) :
    RBInv (insert t title author) := by
  obtain ⟨hroot, hrrf, hbh⟩ := ht
  obtain ⟨n, hn⟩ : ∃ n, t.bh = some n := by
    cases h : t.bh with
    | none => rw [h] at hbh; simp at hbh
    | some k => exact ⟨k, rfl⟩
  apply fix_insertion_inv _ _ 0
  · exact descend_CtxOk hrrf hn trivial (fun hc => by rw [hroot] at hc; simp at hc)
  · rfl
  · rfl
  · rfl

theorem RBInv_buildRB (pairs : List (Str × Str)) : RBInv (buildRB pairs) := by
  suffices h : ∀ (ps : List (Str × Str)) (acc : RBT), RBInv acc →
      RBInv (ps.foldl (fun t p => insert t p.1 p.2) acc) from
    h pairs .nil ⟨rfl, rfl, rfl⟩
  intro ps
  induction ps with
  | nil => exact fun acc h => h
  | cons p ps ih => exact fun acc h => ih (insert acc p.1 p.2) (RBInv_insert h p.1 p.2)

theorem blackCounts_const {t : RBT} {n : Nat} (h : t.bh = some n) :
    ∀ m ∈ t.blackCounts, m = n := by
  induction t generalizing n with
  | nil =>
    simp only [RBT.bh, Option.some.injEq] at h
    simp [RBT.blackCounts, ← h]
  | node c tt a l r ihl ihr =>
    obtain ⟨m0, hl, hr, hk⟩ := bh_node_inv h
    intro m hm
    simp only [RBT.blackCounts, List.mem_map, List.mem_append] at hm
    obtain ⟨x, hx, hxm⟩ := hm
    rcases hx with hx | hx
    · rw [← hxm, ihl hl x hx, hk]
      cases c <;> simp [bhC]
    · rw [← hxm, ihr hr x hx, hk]
      cases c <;> simp [bhC]

end RBTree

/-- C2: after any sequence of inserts into the Author Index starting from the
empty tree (the `NIL` sentinel as root), the three red-black invariants hold:
the root is black, no red node has a red child, and every path from the root
down to a `NIL` sentinel passes through the same number of black nodes. -/
theorem rb_insert_invariants (pairs : List (Str × Str)) :
    RBTree.rootColor (buildRB pairs) = RBColor.black ∧
      (buildRB pairs).redRedFree = true ∧
      ∃ n, ((buildRB pairs).blackCounts).all (fun m => m = n) = true := by
  obtain ⟨h1, h2, h3⟩ := RBTree.RBInv_buildRB pairs
  refine ⟨h1, h2, ?_⟩
  obtain ⟨n, hn⟩ : ∃ n, (buildRB pairs).bh = some n := by
    cases h : (buildRB pairs).bh with
    | none => rw [h] at h3; simp at h3
    | some k => exact ⟨k, rfl⟩
  refine ⟨n, List.all_eq_true.mpr ?_⟩
  intro m hm
  simp only [decide_eq_true_eq]
  exact RBTree.blackCounts_const hn m hm

namespace RBTree

theorem plug_inorder_splice :
    ∀ (ctx : List ZStep) (z : RBT),
      (plug z ctx).inorder_authors = ctxPre ctx ++ z.inorder_authors ++ ctxPost ctx := by
  intro ctx
  induction ctx with
  | nil => intro z; simp [plug, ctxPre, ctxPost]
  | cons s rest ih =>
    intro z
    rw [plug, ih]
    cases hd : s.d <;>
      simp [plug1, hd, ctxPre, ctxPost, RBT.inorder_authors, List.append_assoc]

theorem plug_nil_descend :
    ∀ (t : RBT) (author : Str) (ctx : List ZStep),
      plug RBT.nil (descend author t ctx) = plug t ctx := by
  intro t
  induction t with
  | nil => intro author ctx; rfl
  | node c tt a l r ihl ihr =>
    intro author ctx
    rw [descend]
    split
    · rw [ihl]; rfl
    · rw [ihr]; rfl

theorem fix_insertion_inorder :
    ∀ (ctx : List ZStep) (z : RBT), z ≠ RBT.nil →
      (fix_insertion ctx z).inorder_authors = (plug z ctx).inorder_authors := by
  intro ctx z
  induction ctx, z using fix_insertion.induct with
  | case1 z => intro _; simp [fix_insertion, inorder_blacken, plug]
  | case2 s rest z hsc => intro _; rw [fix_insertion_black hsc, inorder_blacken]
  | case3 s z hsc => intro _; rw [fix_insertion.eq_2, ite_self, inorder_blacken]
  | case4 s z hsc g rest hgd hunc ih =>
    intro hne
    have key : fix_insertion (s :: g :: rest) z =
        fix_insertion rest (RBT.node RBColor.red g.t g.a
          (plug1 { s with c := RBColor.black } z) (blacken g.sib)) := by
      cases z with
      | nil =>
        rw [fix_insertion.eq_5 s g rest RBT.nil (by intro _ _ _ _ _ _ h; cases h)
          (by intro _ _ _ _ _ _ h; cases h), if_neg hsc]
        simp only [hgd]
        rw [if_pos hunc]
      | node c zt za zl zr =>
        cases hsd : s.d with
        | left =>
          rw [fix_insertion.eq_4 s g rest c zt za zl zr hsd
            (by intro _ _ _ _ _ hcontra _; rw [hsd] at hcontra; exact absurd hcontra (by simp)),
            if_neg hsc]
          simp only [hgd]
          rw [if_pos hunc, hsd]
        | right =>
          rw [fix_insertion.eq_3 s g rest c zt za zl zr hsd, if_neg hsc]
          simp only [hgd]
          rw [if_pos hunc, hsd]
    rw [key, ih (by simp), plug_inorder_splice, plug_inorder_splice]
    cases hsd : s.d <;>
      simp [ctxPre, ctxPost, hgd, hsd, plug1, RBT.inorder_authors, inorder_blacken,
        List.append_assoc]
  | case5 s hsc g rest hgd hunc c zt za zl zr hsd =>
    intro _
    rw [fix_insertion.eq_3 s g rest c zt za zl zr hsd, if_neg hsc]
    simp only [hgd]
    rw [if_neg hunc]
    rw [inorder_blacken, plug_inorder_splice, plug_inorder_splice]
    simp [ctxPre, ctxPost, hgd, hsd, RBT.inorder_authors, List.append_assoc]
  | case6 s z hsc g rest hgd hunc hno =>
    intro hne
    cases z with
    | nil => exact absurd rfl hne
    | node c zt za zl zr =>
      cases hsd : s.d with
      | right => exact (hno c zt za zl zr hsd rfl).elim
      | left =>
        rw [fix_insertion.eq_4 s g rest c zt za zl zr hsd hno, if_neg hsc]
        simp only [hgd]
        rw [if_neg hunc]
        rw [inorder_blacken, plug_inorder_splice, plug_inorder_splice]
        simp [ctxPre, ctxPost, hgd, hsd, RBT.inorder_authors, List.append_assoc]
  | case7 s z hsc g rest hgd hunc ih =>
    intro hne
    have key : fix_insertion (s :: g :: rest) z =
        fix_insertion rest (RBT.node RBColor.red g.t g.a (blacken g.sib)
          (plug1 { s with c := RBColor.black } z)) := by
      cases z with
      | nil =>
        rw [fix_insertion.eq_5 s g rest RBT.nil (by intro _ _ _ _ _ _ h; cases h)
          (by intro _ _ _ _ _ _ h; cases h), if_neg hsc]
        simp only [hgd]
        rw [if_pos hunc]
      | node c zt za zl zr =>
        cases hsd : s.d with
        | left =>
          rw [fix_insertion.eq_4 s g rest c zt za zl zr hsd
            (by intro _ _ _ _ _ hcontra _; rw [hsd] at hcontra; exact absurd hcontra (by simp)),
            if_neg hsc]
          simp only [hgd]
          rw [if_pos hunc, hsd]
        | right =>
          rw [fix_insertion.eq_3 s g rest c zt za zl zr hsd, if_neg hsc]
          simp only [hgd]
          rw [if_pos hunc, hsd]
    rw [key, ih (by simp), plug_inorder_splice, plug_inorder_splice]
    cases hsd : s.d <;>
      simp [ctxPre, ctxPost, hgd, hsd, plug1, RBT.inorder_authors, inorder_blacken,
        List.append_assoc]
  | case8 s hsc g rest hgd hunc c zt za zl zr hsd =>
    intro _
    rw [fix_insertion.eq_4 s g rest c zt za zl zr hsd
      (by intro _ _ _ _ _ hcontra _; rw [hsd] at hcontra; exact absurd hcontra (by simp)),
      if_neg hsc]
    simp only [hgd]
    rw [if_neg hunc]
    rw [inorder_blacken, plug_inorder_splice, plug_inorder_splice]
    simp [ctxPre, ctxPost, hgd, hsd, RBT.inorder_authors, List.append_assoc]
  | case9 s z hsc g rest hgd hunc hno =>
    intro hne
    cases z with
    | nil => exact absurd rfl hne
    | node c zt za zl zr =>
      cases hsd : s.d with
      | left => exact (hno c zt za zl zr hsd rfl).elim
      | right =>
        rw [fix_insertion.eq_3 s g rest c zt za zl zr hsd, if_neg hsc]
        simp only [hgd]
        rw [if_neg hunc]
        rw [inorder_blacken, plug_inorder_splice, plug_inorder_splice]
        simp [ctxPre, ctxPost, hgd, hsd, RBT.inorder_authors, List.append_assoc]

theorem insert_inorder (t : RBT) (title author : Str) :
    (insert t title author).inorder_authors.Perm (author :: t.inorder_authors) := by
  rw [insert, fix_insertion_inorder _ _ (by simp), plug_inorder_splice]
  have ht : t.inorder_authors =
      ctxPre (descend author t []) ++ ctxPost (descend author t []) := by
    have h := plug_inorder_splice (descend author t []) RBT.nil
    rw [plug_nil_descend] at h
    simp only [plug, RBT.inorder_authors, List.append_nil] at h
    exact h
  rw [ht]
  have hio : (RBT.node RBColor.red title author RBT.nil RBT.nil).inorder_authors =
      [author] := rfl
  rw [hio]
  have hp : ctxPre (descend author t []) ++ [author] ++ ctxPost (descend author t []) =
      ctxPre (descend author t []) ++ author :: ctxPost (descend author t []) := by simp
  rw [hp]
  exact List.perm_middle

theorem buildRB_inorder (pairs : List (Str × Str)) :
    (buildRB pairs).inorder_authors.Perm (pairs.map Prod.snd) := by
  suffices h : ∀ (ps : List (Str × Str)) (acc : RBT),
      (ps.foldl (fun t p => insert t p.1 p.2) acc).inorder_authors.Perm
        (acc.inorder_authors ++ ps.map Prod.snd) by
    simpa [buildRB, RBT.inorder_authors] using h pairs .nil
  intro ps
  induction ps with
  | nil => intro acc; simp
  | cons p ps ih =>
    intro acc
    refine (ih (insert acc p.1 p.2)).trans ?_
    have h2 := (insert_inorder acc p.1 p.2).append_right (ps.map Prod.snd)
    refine h2.trans ?_
    simp only [List.cons_append, List.map_cons]
    exact List.perm_middle.symm

end RBTree

theorem mem_insSorted {x y : Str} {l : List Str} :
    x ∈ insSorted y l ↔ x = y ∨ x ∈ l := by
  induction l with
  | nil => simp [insSorted]
  | cons z zs ih =>
    simp only [insSorted]
    split
    · simp
    · simp only [List.mem_cons, ih]
      tauto

theorem insSorted_perm (x : Str) (l : List Str) : (insSorted x l).Perm (x :: l) := by
  induction l with
  | nil => exact List.Perm.refl _
  | cons y ys ih =>
    simp only [insSorted]
    split
    · exact List.Perm.refl _
    · exact (ih.cons y).trans (List.Perm.swap x y ys)

theorem sortAsc_perm (l : List Str) : (sortAsc l).Perm l := by
  induction l with
  | nil => exact List.Perm.refl _
  | cons x xs ih => exact (insSorted_perm x (sortAsc xs)).trans (ih.cons x)

theorem pairwise_le_insSorted {x : Str} {l : List Str}
    (h : l.Pairwise (fun a b => strLe a b = true)) :
    (insSorted x l).Pairwise (fun a b => strLe a b = true) := by
  induction l with
  | nil => simp [insSorted]
  | cons y ys ih =>
    rw [List.pairwise_cons] at h
    obtain ⟨hy, hys⟩ := h
    simp only [insSorted]
    split
    · next hxy =>
      rw [List.pairwise_cons]
      constructor
      · intro b hb
        rcases List.mem_cons.mp hb with rfl | hb
        · exact strLe_of_lt hxy
        · exact strLe_trans (strLe_of_lt hxy) (hy b hb)
      · exact List.Pairwise.cons hy hys
    · next hxy =>
      rw [List.pairwise_cons]
      constructor
      · intro b hb
        rcases mem_insSorted.mp hb with rfl | hb
        · have hxf : strLt b y = false := by
            cases hb2 : strLt b y
            · rfl
            · exact absurd hb2 hxy
          unfold strLe
          rw [hxf]
          rfl
        · exact hy b hb
      · exact ih hys

theorem pairwise_le_sortAsc (l : List Str) :
    (sortAsc l).Pairwise (fun a b => strLe a b = true) := by
  induction l with
  | nil => simp [sortAsc]
  | cons x xs ih => exact pairwise_le_insSorted ih

theorem mem_dedupSeen {x : Str} :
    ∀ {l seen : List Str}, x ∈ dedupSeen seen l ↔ x ∈ l ∧ x ∉ seen := by
  intro l
  induction l with
  | nil => intro seen; simp [dedupSeen]
  | cons y ys ih =>
    intro seen
    simp only [dedupSeen]
    split
    · next hy =>
      rw [ih]
      constructor
      · exact fun ⟨h1, h2⟩ => ⟨List.mem_cons_of_mem y h1, h2⟩
      · rintro ⟨h1, h2⟩
        rcases List.mem_cons.mp h1 with rfl | h1
        · exact absurd hy h2
        · exact ⟨h1, h2⟩
    · next hy =>
      rw [List.mem_cons, ih]
      constructor
      · rintro (rfl | ⟨h1, h2⟩)
        · exact ⟨List.mem_cons_self x ys, hy⟩
        · exact ⟨List.mem_cons_of_mem y h1, fun hc => h2 (List.mem_cons_of_mem y hc)⟩
      · rintro ⟨h1, h2⟩
        by_cases hxy : x = y
        · exact Or.inl hxy
        · rcases List.mem_cons.mp h1 with rfl | h1
          · exact Or.inl rfl
          · refine Or.inr ⟨h1, ?_⟩
            intro hc
            rcases List.mem_cons.mp hc with hc | hc
            · exact hxy hc
            · exact h2 hc

theorem nodup_dedupSeen : ∀ (l seen : List Str), (dedupSeen seen l).Nodup := by
  intro l
  induction l with
  | nil => intro seen; simp [dedupSeen]
  | cons y ys ih =>
    intro seen
    simp only [dedupSeen]
    split
    · exact ih seen
    · rw [List.nodup_cons]
      refine ⟨?_, ih (y :: seen)⟩
      intro hmem
      rw [mem_dedupSeen] at hmem
      exact hmem.2 (List.mem_cons_self y seen)

theorem mem_dedupKeepFirst {x : Str} {l : List Str} : x ∈ dedupKeepFirst l ↔ x ∈ l := by
  rw [dedupKeepFirst, mem_dedupSeen]
  simp

theorem nodup_dedupKeepFirst (l : List Str) : (dedupKeepFirst l).Nodup :=
  nodup_dedupSeen l []

theorem pairwise_lt_of_le_nodup : ∀ {l : List Str},
    l.Pairwise (fun a b => strLe a b = true) → l.Nodup →
      l.Pairwise (fun a b => strLt a b = true) := by
  intro l
  induction l with
  | nil => intro _ _; exact List.Pairwise.nil
  | cons a l ih =>
    intro hp hn
    rw [List.pairwise_cons] at hp ⊢
    rw [List.nodup_cons] at hn
    refine ⟨?_, ih hp.2 hn.2⟩
    intro b hb
    refine strLt_of_le_of_ne (hp.1 b hb) ?_
    intro heq
    exact hn.1 (heq ▸ hb)

/-- C4: `list_unique_authors` on the Author Index built from any insert
sequence returns the strictly ascending sequence of exactly the distinct
inserted author strings (duplicates removed only under exact, case-sensitive
equality); in particular inserting authors "Bob", "Ann", "Bob", "ann" yields
["Ann", "Bob", "ann"]. -/
theorem rb_list_unique_authors :
    (∀ pairs : List (Str × Str),
      (RBTree.list_unique_authors (buildRB pairs)).Pairwise (fun a b => strLt a b = true) ∧
        ∀ a, a ∈ RBTree.list_unique_authors (buildRB pairs) ↔ a ∈ pairs.map Prod.snd) ∧
      RBTree.list_unique_authors (buildRB
        [(chars "t1", chars "Bob"), (chars "t2", chars "Ann"),
          (chars "t3", chars "Bob"), (chars "t4", chars "ann")]) =
        [ chars "Ann", chars "Bob", chars "ann" ] := by
  constructor
  · intro pairs
    constructor
    · simp only [RBTree.list_unique_authors]
      apply pairwise_lt_of_le_nodup (pairwise_le_sortAsc _)
      exact ((sortAsc_perm _).nodup_iff).mpr (nodup_dedupKeepFirst _)
    · intro a
      simp only [RBTree.list_unique_authors]
      rw [(sortAsc_perm _).mem_iff, mem_dedupKeepFirst]
      exact (RBTree.buildRB_inorder pairs).mem_iff
  · decide

theorem dedupSeen_eq_dedupFirstOcc :
    ∀ (l seen : List Str), dedupSeen seen l = dedupFirstOcc (l.filter (fun y => ¬ y ∈ seen)) := by
  intro l
  induction l with
  | nil => intro seen; simp [dedupSeen, dedupFirstOcc]
  | cons x xs ih =>
    intro seen
    by_cases hx : x ∈ seen
    · rw [dedupSeen]
      simp only [if_pos hx]
      rw [ih seen]
      congr 1
      simp [List.filter_cons, hx]
    · rw [dedupSeen]
      simp only [if_neg hx]
      rw [ih (x :: seen)]
      have hrhs : (x :: xs).filter (fun y => ¬ y ∈ seen) =
          x :: xs.filter (fun y => ¬ y ∈ seen) := by
        simp [List.filter_cons, hx]
      rw [hrhs, dedupFirstOcc]
      congr 1
      have harg : xs.filter (fun y => decide (¬ y ∈ x :: seen)) =
          (xs.filter (fun y => decide (¬ y ∈ seen))).filter (fun y => decide (y ≠ x)) := by
        rw [List.filter_filter]
        apply List.filter_congr
        intro z _
        by_cases h1 : z = x <;> by_cases h2 : z ∈ seen <;> simp [h1, h2]
      rw [harg]

open AdvancedSearchEngine in
/-- C7: for every prefix, title pool, search history and fuzzy-match result
of the external difflib call, `smart_autocomplete` returns at most 8
suggestions with no duplicates, equal to the first-seen-order deduplication
of the concatenation: up to 3 pool titles whose lowercase form starts with
the lowercase prefix (in pool order), then the fuzzy matches, then up to 2
history entries containing the prefix case-insensitively (in history
order), truncated to 8. -/
theorem smart_autocomplete_spec (fuzzy_matches : List Str) (pfx : Str)
    (paper_titles search_history : List Str) :
    smart_autocomplete fuzzy_matches pfx paper_titles search_history =
      (dedupFirstOcc
        ((paper_titles.filter (fun title => (lowerStr pfx).isPrefixOf (lowerStr title))).take 3
          ++ fuzzy_matches
          ++ (search_history.filter (fun q => substrB (lowerStr pfx) (lowerStr q))).take 2)).take 8 ∧
    (smart_autocomplete fuzzy_matches pfx paper_titles search_history).Nodup ∧
    (smart_autocomplete fuzzy_matches pfx paper_titles search_history).length ≤ 8 := by
  refine ⟨?_, ?_, ?_⟩
  · simp only [smart_autocomplete]
    rw [dedupSeen_eq_dedupFirstOcc]
    congr 1
    simp
  · simp only [smart_autocomplete]
    exact (nodup_dedupSeen _ []).sublist (List.take_sublist _ _)
  · simp only [smart_autocomplete]
    exact List.length_take_le _ _

theorem liftIf {α : Type} (b : Bool) (f : α → Bool) (l : List α) :
    (if b = true then l.filter f else l) = l.filter (fun x => ! b || f x) := by
  cases b <;> simp

theorem foldl_filter {α : Type} (fs : List (α → Bool)) (l : List α) :
    fs.foldl (fun ps f => ps.filter f) l = l.filter (fun x => fs.all (fun f => f x)) := by
  induction fs generalizing l with
  | nil => simp
  | cons f fs ih =>
    simp only [List.foldl_cons, ih, List.filter_filter]
    apply List.filter_congr
    intro x _
    simp [List.all_cons, Bool.and_comm]

theorem all_of_perm {α : Type} {l l' : List α} (h : l.Perm l') (p : α → Bool) :
    l.all p = l'.all p := by
  induction h with
  | nil => rfl
  | cons x _ ih => simp [List.all_cons, ih]
  | swap x y l => simp [List.all_cons, Bool.and_left_comm]
  | trans _ _ ih1 ih2 => exact ih1.trans ih2

open AdvancedSearchEngine in
/-- C8: `filter_papers_advanced` returns the subsequence of the input
records satisfying the logical AND of all active predicates (absent or
empty configuration fields impose no constraint, each stage predicate being
lifted to `true` when inactive), and applying the five stage filters in any
order — any permutation of the stage list — produces the identical result. -/
theorem filter_advanced_and_of_active (sim : Str → Str → Bool) (now : Int)
    (papers : List Paper) (filters : FilterConfig) :
    filter_papers_advanced sim now papers filters =
      papers.filter (conjPred sim now filters) ∧
    (filter_papers_advanced sim now papers filters).Sublist papers ∧
    (∀ l : List (Paper → Bool), l.Perm (stagePreds sim now filters) →
      l.foldl (fun ps g => ps.filter g) papers = papers.filter (conjPred sim now filters)) := by
  have hconj : ∀ l : List (Paper → Bool), l.Perm (stagePreds sim now filters) →
      l.foldl (fun ps g => ps.filter g) papers = papers.filter (conjPred sim now filters) := by
    intro l hl
    rw [foldl_filter]
    apply List.filter_congr
    intro p _
    exact all_of_perm hl (fun g => g p)
  have hseq : filter_papers_advanced sim now papers filters =
      (stagePreds sim now filters).foldl (fun ps g => ps.filter g) papers := by
    simp only [filter_papers_advanced, stagePreds, List.foldl_cons, List.foldl_nil, liftIf]
  refine ⟨?_, ?_, hconj⟩
  · rw [hseq]
    exact hconj _ (List.Perm.refl _)
  · rw [hseq, hconj _ (List.Perm.refl _)]
    exact List.filter_sublist _

open AdvancedSearchEngine in
/-- Witness for C8: a concrete permutation (the stage list itself) applied
to a concrete one-record input. -/
theorem filter_advanced_witness :
    List.foldl (fun ps g => ps.filter g) [(⟨none, none, none, none, none⟩ : Paper)]
        (stagePreds (fun _ _ => false) 0 ⟨none, none, none, none, none⟩) =
      [(⟨none, none, none, none, none⟩ : Paper)].filter
        (conjPred (fun _ _ => false) 0 ⟨none, none, none, none, none⟩) :=
  (filter_advanced_and_of_active (fun _ _ => false) 0
    [⟨none, none, none, none, none⟩] ⟨none, none, none, none, none⟩).2.2 _ (List.Perm.refl _)

open AdvancedSearchEngine in
/-- C9: parse failures never propagate: a citation count that is the
sentinel string, an unparseable string, or `None` yields the numeric
default 0 in `_get_citation_count`; a year that is the sentinel,
unparseable, or absent makes `_is_recent_paper` false; and such a record is
excluded from `filter_papers_advanced` whenever the recency filter is
active. -/
theorem parse_failure_handling :
    (∀ (p : Paper) (s : Str), p.citation_count = some (.pStr s) →
      (s = chars "Citation Count Not Available" ∨ parseIntPy s = none) →
      _get_citation_count p = 0) ∧
    (∀ p : Paper, p.citation_count = some .pNone → _get_citation_count p = 0) ∧
    (∀ (p : Paper) (cutoff : Int) (s : Str), p.year = some (.pStr s) →
      (s = chars "Year Not Available" ∨ parseIntPy s = none) →
      _is_recent_paper p cutoff = false) ∧
    (∀ (p : Paper) (cutoff : Int), p.year = some .pNone ∨ p.year = none →
      _is_recent_paper p cutoff = false) ∧
    (∀ (sim : Str → Str → Bool) (now : Int) (papers : List Paper) (f : FilterConfig)
        (p : Paper) (s : Str), recencyActive f = true → p.year = some (.pStr s) →
      (s = chars "Year Not Available" ∨ parseIntPy s = none) →
      ¬ p ∈ filter_papers_advanced sim now papers f) := by
  have hrec : ∀ (p : Paper) (cutoff : Int) (s : Str), p.year = some (.pStr s) →
      (s = chars "Year Not Available" ∨ parseIntPy s = none) →
      _is_recent_paper p cutoff = false := by
    intro p cutoff s hp hs
    simp only [_is_recent_paper, hp]
    rcases hs with rfl | hs
    · simp
    · split
      · rfl
      · simp [pyIntOf, hs]
  refine ⟨?_, ?_, hrec, ?_, ?_⟩
  · intro p s hp hs
    simp only [_get_citation_count, hp, Option.getD_some]
    rcases hs with rfl | hs
    · simp
    · split
      · rfl
      · simp [pyIntOf, hs]
  · intro p hp
    simp only [_get_citation_count, hp, Option.getD_some]
    split
    · rfl
    · simp [pyIntOf]
  · intro p cutoff hp
    rcases hp with hp | hp <;> simp [_is_recent_paper, hp, pyIntOf]
  · intro sim now papers f p s hact hp hs hmem
    rw [(filter_advanced_and_of_active sim now papers f).1, List.mem_filter] at hmem
    have hc := hmem.2
    simp only [conjPred, stagePreds, List.all_cons, List.all_nil, Bool.and_eq_true,
      Bool.or_eq_true, Bool.not_eq_true'] at hc
    have hr := hc.2.2.2.2.1
    rcases hr with hr | hr
    · rw [hact] at hr
      exact absurd hr (by simp)
    · rw [recencyPred, hrec p _ s hp hs] at hr
      exact absurd hr (by simp)

namespace AdvancedSearchEngine

theorem mem_insDesc {r p : Str × Nat} {l : List (Str × Nat)} :
    r ∈ insDesc p l ↔ r = p ∨ r ∈ l := by
  induction l with
  | nil => simp [insDesc]
  | cons q qs ih =>
    simp only [insDesc]
    split
    · simp only [List.mem_cons, ih]
      tauto
    · simp [List.mem_cons]

theorem pairwise_ge_insDesc {p : Str × Nat} {l : List (Str × Nat)}
    (h : l.Pairwise (fun a b => b.2 ≤ a.2)) :
    (insDesc p l).Pairwise (fun a b => b.2 ≤ a.2) := by
  induction l with
  | nil => simp [insDesc]
  | cons q qs ih =>
    rw [List.pairwise_cons] at h
    obtain ⟨hq, hqs⟩ := h
    simp only [insDesc]
    split
    · next hgt =>
      rw [List.pairwise_cons]
      constructor
      · intro r hr
        rcases mem_insDesc.mp hr with rfl | hr
        · exact le_of_lt hgt
        · exact hq r hr
      · exact ih hqs
    · next hgt =>
      rw [List.pairwise_cons]
      constructor
      · intro r hr
        rcases List.mem_cons.mp hr with rfl | hr
        · omega
      
        · exact le_trans (hq r hr) (by omega)
      · exact List.Pairwise.cons hq hqs

theorem pairwise_ge_sortDesc (l : List (Str × Nat)) :
    (sortDesc l).Pairwise (fun a b => b.2 ≤ a.2) := by
  induction l with
  | nil => simp [sortDesc]
  | cons x xs ih => exact pairwise_ge_insDesc ih

/-- C5: `suggest_related_queries` is exactly the map of `"{query} {word}"`
over every entry of the 10 most frequent title words that is outside the
query's own word set and of frequency above 1, most frequent first, capped
at 5 — the equality gives completeness (each eligible top-10 word is
emitted, up to the cap) as well as soundness; the frequency table it ranks
is genuinely sorted most-frequent-first; the output has at most 5 entries;
and the emitted entries form a most-frequent-first subsequence of the
top-10 satisfying both eligibility conditions. -/
theorem suggest_related_spec (query : Str) (papers : List Paper) :
    suggest_related_queries query papers =
      ((((titleWordFreqSorted papers).take 10).filter
        (fun wf => ¬ wf.1 ∈ splitWS (lowerStr query) ∧ wf.2 > 1)).map
        (fun wf => query ++ ' ' :: wf.1)).take 5 ∧
    (suggest_related_queries query papers).length ≤ 5 ∧
    (titleWordFreqSorted papers).Pairwise (fun a b => b.2 ≤ a.2) ∧
    ∃ ws : List (Str × Nat),
      suggest_related_queries query papers = ws.map (fun wf => query ++ ' ' :: wf.1) ∧
      ws = (((titleWordFreqSorted papers).take 10).filter
        (fun wf => ¬ wf.1 ∈ splitWS (lowerStr query) ∧ wf.2 > 1)).take 5 ∧
      ws.Sublist ((titleWordFreqSorted papers).take 10) ∧
      ws.Pairwise (fun a b => b.2 ≤ a.2) ∧
      ws.all (fun wf => decide (¬ wf.1 ∈ splitWS (lowerStr query) ∧ wf.2 > 1)) = true := by
  refine ⟨?_, ?_, pairwise_ge_sortDesc _, ?_⟩
  · simp only [suggest_related_queries, titleWordFreqSorted]
  · simp only [suggest_related_queries]
    exact List.length_take_le _ _
  · refine ⟨(((titleWordFreqSorted papers).take 10).filter
      (fun wf => ¬ wf.1 ∈ splitWS (lowerStr query) ∧ wf.2 > 1)).take 5, ?_, rfl, ?_, ?_, ?_⟩
    · simp only [suggest_related_queries, titleWordFreqSorted]
      rw [← List.map_take]
    · exact (List.take_sublist _ _).trans (List.filter_sublist _)
    · have hsub : ((((titleWordFreqSorted papers).take 10).filter
          (fun wf => ¬ wf.1 ∈ splitWS (lowerStr query) ∧ wf.2 > 1)).take 5).Sublist
          (titleWordFreqSorted papers) :=
        ((List.take_sublist _ _).trans (List.filter_sublist _)).trans (List.take_sublist _ _)
      exact List.Pairwise.sublist hsub (pairwise_ge_sortDesc _)
    · rw [List.all_eq_true]
      intro wf hwf
      have h1 := List.mem_of_mem_take hwf
      simpa using (List.mem_filter.mp h1).2

/-- C6: `analyze_query` on the input `author:smith "deep learning" AND survey`
extracts the quoted phrase, the author field query, the boolean operator with
its case preserved, keeps `survey` but not `and` among the keywords, and
classifies the intent as `survey`. -/
theorem analyze_query_example :
    (analyze_query (chars "author:smith \"deep learning\" AND survey")).quoted_phrases =
      [ chars "deep learning" ] ∧
    (analyze_query (chars "author:smith \"deep learning\" AND survey")).field_queries =
      [(chars "author", chars "smith")] ∧
    (analyze_query (chars "author:smith \"deep learning\" AND survey")).boolean_operators =
      [ chars "AND" ] ∧
    chars "survey" ∈
      (analyze_query (chars "author:smith \"deep learning\" AND survey")).keywords ∧
    ¬ chars "and" ∈
      (analyze_query (chars "author:smith \"deep learning\" AND survey")).keywords ∧
    (analyze_query (chars "author:smith \"deep learning\" AND survey")).intent =
      chars "survey" := by
  decide

end AdvancedSearchEngine

/-- Witness for C9 at the sentinel citation count and the sentinel year. -/
theorem parse_failure_handling_witness :
    AdvancedSearchEngine._get_citation_count
        ⟨none, none, none, none, some (.pStr (chars "Citation Count Not Available"))⟩ = 0 ∧
    AdvancedSearchEngine._is_recent_paper
        ⟨none, none, none, some (.pStr (chars "Year Not Available")), none⟩ 0 = false :=
  ⟨parse_failure_handling.1 _ _ rfl (Or.inl rfl),
   parse_failure_handling.2.2.1 _ 0 _ rfl (Or.inl rfl)⟩
